import Mathlib

/-!
# cache-warmer: change-detection engine

A shallow embedding of the file enumeration (`symfony/files.go`) and of the
monitoring loop (`cache-warmer.go`), followed by theorems about them.

Go strings are modelled by Lean strings, Go slices by lists, a Go
`(value, error)` result by `Except` (or by a pair where the code returns a
partial value together with the error), and a Go `map[string]string` by an
association list with distinct keys, wrapped in `Option` to keep the nil map
apart from the empty map.
-/

namespace CacheWarmer

/-! ## Go library: `strings` -/

/-- Go `strings.HasPrefix(s, prefix)`. -/
def HasPrefix (s pre : String) : Bool := pre.data.isPrefixOf s.data

/-- Go `strings.HasSuffix(s, suffix)`. -/
def HasSuffix (s suf : String) : Bool := suf.data.isSuffixOf s.data

/-- Substring test on character lists: some suffix of the first list starts with the second. -/
def containsChars : List Char → List Char → Bool
  | [], sub => sub.isEmpty
  | c :: cs, sub => sub.isPrefixOf (c :: cs) || containsChars cs sub

/-- Go `strings.Contains(s, substr)`. -/
def Contains (s substr : String) : Bool := containsChars s.data substr.data

/-! ## Go library: `path/filepath` (Unix) -/

/-- Split a path at every separator; the result always has at least one element. -/
def splitSep : List Char → List (List Char)
  | [] => [[]]
  | c :: cs =>
    if c = '/' then [] :: splitSep cs
    else
      match splitSep cs with
      | [] => [[c]]
      | h :: t => (c :: h) :: t

/-- One step of `filepath.Clean` over the stack of kept elements (last kept element first):
empty and `.` elements are dropped, `..` removes the last kept real element when there is
one, is kept when the path is relative, and is dropped at the root. -/
def cleanStep (rooted : Bool) (out : List (List Char)) (el : List Char) : List (List Char) :=
  if el = [] then out
  else if el = ['.'] then out
  else if el = ['.', '.'] then
    match out with
    | [] => if rooted then [] else [el]
    | top :: rest =>
      if top = ['.', '.'] then (if rooted then out else el :: out) else rest
  else el :: out

/-- Go `strings.Join(elems, "/")` on character lists. -/
def joinSep : List (List Char) → List Char
  | [] => []
  | [e] => e
  | e :: es => e ++ '/' :: joinSep es

/-- Go `filepath.Clean` on character lists. -/
def cleanChars (path : List Char) : List Char :=
  let rooted : Bool := path.head? = some '/'
  let out := (splitSep path).foldl (cleanStep rooted) []
  let body := joinSep out.reverse
  if rooted then '/' :: body else if body = [] then ['.'] else body

/-- Go `filepath.Clean`. -/
def Clean (path : String) : String := ⟨cleanChars path.data⟩

/-- Go `filepath.Join`: leading empty elements are ignored, the rest is joined with the
separator and cleaned; the result is empty when every element is empty. -/
def Join (elem : List String) : String :=
  match (elem.map String.data).dropWhile (fun e => e.isEmpty) with
  | [] => ""
  | es => ⟨cleanChars (joinSep es)⟩

/-! ## Filesystem -/

/-- The entries of a directory, in the order `os.ReadDir` lists them: a non-directory entry,
a readable directory with its own entries, or a directory on which `os.ReadDir` fails with
the given error. -/
inductive Entries where
  | nil : Entries
  | file (name : String) (rest : Entries) : Entries
  | dir (name : String) (children : Entries) (rest : Entries) : Entries
  | baddir (name : String) (err : String) (rest : Entries) : Entries
  deriving Repr, DecidableEq

/-- What `os.Lstat` finds at a walk root. -/
inductive Node where
  | file : Node
  | dir (entries : Entries) : Node
  | baddir (err : String) : Node
  deriving Repr, DecidableEq

/-- An `os.Stat` failure: whether `os.IsNotExist` holds for it, and its message. -/
structure StatError where
  notExist : Bool
  msg : String
  deriving Repr, DecidableEq

/-- The operating-system calls the program makes, each as a function of the path string it
is called with. -/
structure FileSystem where
  /-- The result of `os.Lstat` on a walk root, with the tree below it. -/
  lstat : String → Except String Node
  /-- The result of `filepath.Glob` on a pattern. -/
  glob : String → Except String (List String)
  /-- The result of `os.Stat`: the string form of the modification time. -/
  stat : String → Except StatError String

/-! ## `filepath.WalkDir` -/

/-- What a `fs.WalkDirFunc` returns besides nil. -/
inductive WalkErr where
  | skipDir : WalkErr
  | fail (msg : String) : WalkErr
  deriving Repr, DecidableEq

/-- A walk callback with its captured state made explicit:
state, path, `d.IsDir()`, incoming error. -/
abbrev WalkDirFunc (σ : Type) := σ → String → Bool → Option String → σ × Option WalkErr

/-- The loop of `walkDir` over the entries of the directory at `path`. Each entry is visited
by the callback; a directory is descended into unless the callback skips it; `SkipDir` from
a non-directory ends the loop; any other error aborts the walk. -/
def walkEntries {σ : Type} (fn : WalkDirFunc σ) (path : String) : Entries → σ → σ × Option String
  | .nil, s => (s, none)
  | .file name rest, s =>
    match fn s (Join [path, name]) false none with
    | (s1, none) => walkEntries fn path rest s1
    | (s1, some .skipDir) => (s1, none)
    | (s1, some (.fail e)) => (s1, some e)
  | .dir name children rest, s =>
    match fn s (Join [path, name]) true none with
    | (s1, some .skipDir) => walkEntries fn path rest s1
    | (s1, some (.fail e)) => (s1, some e)
    | (s1, none) =>
      match walkEntries fn (Join [path, name]) children s1 with
      | (s2, some e) => (s2, some e)
      | (s2, none) => walkEntries fn path rest s2
  | .baddir name err rest, s =>
    match fn s (Join [path, name]) true none with
    | (s1, some .skipDir) => walkEntries fn path rest s1
    | (s1, some (.fail e)) => (s1, some e)
    | (s1, none) =>
      match fn s1 (Join [path, name]) true (some err) with
      | (s2, some .skipDir) => walkEntries fn path rest s2
      | (s2, some (.fail e)) => (s2, some e)
      | (s2, none) => walkEntries fn path rest s2

/-- Go `filepath.WalkDir`: a failing `os.Lstat` on the root is reported to the callback;
`SkipDir` returned for the root ends the walk without error. -/
def WalkDir {σ : Type} (fs : FileSystem) (root : String) (fn : WalkDirFunc σ) (s : σ) :
    σ × Option String :=
  match fs.lstat root with
  | .error e =>
    match fn s root false (some e) with
    | (s1, some (.fail m)) => (s1, some m)
    | (s1, _) => (s1, none)
  | .ok .file =>
    match fn s root false none with
    | (s1, some (.fail m)) => (s1, some m)
    | (s1, _) => (s1, none)
  | .ok (.dir entries) =>
    match fn s root true none with
    | (s1, some .skipDir) => (s1, none)
    | (s1, some (.fail m)) => (s1, some m)
    | (s1, none) => walkEntries fn root entries s1
  | .ok (.baddir err) =>
    match fn s root true none with
    | (s1, some .skipDir) => (s1, none)
    | (s1, some (.fail m)) => (s1, some m)
    | (s1, none) =>
      match fn s1 root true (some err) with
      | (s2, some (.fail m)) => (s2, some m)
      | (s2, _) => (s2, none)

/-! ## `structs/config.go` -/

/-- The configuration record `structs.Config`; `SleepTime` is a duration in nanoseconds. -/
structure Config where
  ClearCache : Bool
  DirMigrations : String
  DirSymfonyConfig : String
  DirSymfonyProject : String
  DirSymfonySrc : String
  DirSymfonyTemplates : String
  DirSymfonyTranslations : String
  DirSymfonyVendor : String
  DirsExclude : List String
  ForceClearCache : Bool
  Pools : List String
  PoolsProvided : Bool
  SleepTime : Nat
  SymfonyConsolePath : String
  SymfonyDebug : Bool
  SymfonyEnv : String
  VendorList : List String
  VendorWatch : Bool

/-- The list `DefaultExcludedDirs`. -/
def DefaultExcludedDirs : List String := [".git", ".github", "node_modules"]

/-- The method `Config.Init`: the default values; the project directory, which `Init` leaves
untouched and `main` fills in afterwards, is taken as an argument. -/
def Config.Init (project : String) : Config where
  ClearCache := false
  DirMigrations := "migrations"
  DirSymfonyConfig := "config"
  DirSymfonyProject := project
  DirSymfonySrc := "src"
  DirSymfonyTemplates := "templates"
  DirSymfonyTranslations := "translations"
  DirSymfonyVendor := "vendor"
  DirsExclude := DefaultExcludedDirs
  ForceClearCache := false
  Pools := []
  PoolsProvided := false
  SleepTime := 30000000
  SymfonyConsolePath := "bin/console"
  SymfonyDebug := true
  SymfonyEnv := "dev"
  VendorList := []
  VendorWatch := false

/-! ## `symfony/files.go` -/

/-- The callback `FindFiles` passes to `filepath.WalkDir`; its captured variable `files` is
the state. -/
def findFilesFn (config : Config) (root : String) (excludedDirs : List String)
    (vendorWatch : Bool) (vendorList : List String) : WalkDirFunc (List String) :=
  fun files path isDir err =>
    match err with
    | some e => (files, some (.fail e))
    | none =>
      if excludedDirs.any (fun excludedDir => isDir && Contains path excludedDir) then
        (files, some .skipDir)
      else if isDir then
        if HasPrefix path (Join [root, config.DirSymfonyVendor]) then
          if !vendorWatch then (files, some .skipDir)
          else if vendorList.length > 0 then
            if vendorList.any
                (fun vendor => HasPrefix path (Join [root, config.DirSymfonyVendor, vendor])) then
              (files, none)
            else (files, some .skipDir)
          else (files, none)
        else (files, none)
      else if !HasSuffix path ".gitignore" then (files ++ [path], none)
      else (files, none)

/-- The function `FindFiles`: the files collected by the walk, together with the error of
the walk, if any. -/
def FindFiles (fs : FileSystem) (config : Config) (root : String) (excludedDirs : List String)
    (vendorWatch : Bool) (vendorList : List String) : List String × Option String :=
  WalkDir fs root (findFilesFn config root excludedDirs vendorWatch vendorList) []

/-- The function `GetFilesFromPath`. -/
def GetFilesFromPath (fs : FileSystem) (config : Config) (glob : String) :
    Except String (List String) :=
  match fs.glob (Join [config.DirSymfonyProject, glob]) with
  | .error e => .error ("error while globbing files: " ++ e)
  | .ok files => .ok files

/-- The function `GetSingleFileFromPath`. -/
def GetSingleFileFromPath (fs : FileSystem) (config : Config) (filePath : String) :
    Except String String :=
  let fullPath := Join [config.DirSymfonyProject, filePath]
  match fs.stat fullPath with
  | .error e => if e.notExist then .error ("file not found: " ++ fullPath) else .error e.msg
  | .ok _ => .ok fullPath

/-- The order in which one `range` over a Go map yields its keys: some rearrangement of the
key set, not fixed by the language. -/
structure MapOrder where
  range : List String → List String
  perm : ∀ keys, (range keys).Perm keys

/-- The key set of the map literal `symfonyDirs`: equal keys collapse to one. -/
def symfonyDirs (config : Config) : List String :=
  List.dedup [config.DirSymfonyConfig, config.DirSymfonySrc, config.DirSymfonyTemplates,
    config.DirSymfonyTranslations, config.DirMigrations]

/-- The first loop of `GetFilesToWatch`, over the directories to watch. -/
def watchDirs (fs : FileSystem) (config : Config) (excludedDirs : List String) :
    List String → List String → Except String (List String)
  | [], filesToWatch => .ok filesToWatch
  | dir :: rest, filesToWatch =>
    match FindFiles fs config dir excludedDirs false config.VendorList with
    | (_, some e) => .error e
    | (files, none) => watchDirs fs config excludedDirs rest (filesToWatch ++ files)

/-- The second loop of `GetFilesToWatch`, over the vendor list. -/
def watchVendors (fs : FileSystem) (config : Config) (excludedDirs : List String) :
    List String → List String → Except String (List String)
  | [], filesToWatch => .ok filesToWatch
  | vendor :: rest, filesToWatch =>
    match FindFiles fs config (Join [config.DirSymfonyVendor, vendor]) excludedDirs true
        config.VendorList with
    | (_, some e) => .error e
    | (vendorFiles, none) =>
      watchVendors fs config excludedDirs rest (filesToWatch ++ vendorFiles)

/-- The list `excludedDirs` that `GetFilesToWatch` sets up. -/
def excludedDirsOf (config : Config) : List String :=
  if !config.VendorWatch then config.DirsExclude ++ [config.DirSymfonyVendor]
  else config.DirsExclude

/-- The function `GetFilesToWatch`. -/
def GetFilesToWatch (fs : FileSystem) (order : MapOrder) (config : Config) :
    Except String (List String) :=
  let excludedDirs := excludedDirsOf config
  match GetFilesFromPath fs config ".env*" with
  | .error e => .error e
  | .ok envFiles =>
    match GetSingleFileFromPath fs config "public/index.php" with
    | .error e => .error e
    | .ok indexFile =>
      match watchDirs fs config excludedDirs (order.range (symfonyDirs config))
          (envFiles ++ [indexFile]) with
      | .error e => .error e
      | .ok filesToWatch =>
        if config.VendorWatch then
          watchVendors fs config excludedDirs config.VendorList filesToWatch
        else .ok filesToWatch

/-- A non-nil Go `map[string]string`: its entries, one per key. -/
abbrev GoMap := List (String × String)

/-- The map index expression `m[k]` with the comma-ok result. -/
def mapIndex : GoMap → String → Option String
  | [], _ => none
  | (k1, v1) :: m, k => if k1 = k then some v1 else mapIndex m k

/-- The map assignment `m[k] = v`. -/
def mapSet : GoMap → String → String → GoMap
  | [], k, v => [(k, v)]
  | (k1, v1) :: m, k, v => if k1 = k then (k, v) :: m else (k1, v1) :: mapSet m k v

/-- The stat loop of `GetWatchMap`. -/
def statAll (fs : FileSystem) : List String → GoMap → Except String GoMap
  | [], watchMap => .ok watchMap
  | file :: rest, watchMap =>
    match fs.stat file with
    | .error e =>
      .error ("can't get stats for the \"" ++ file ++
        "\" file, check the project permissions or if a new file was created: " ++ e.msg)
    | .ok modTime => statAll fs rest (mapSet watchMap file modTime)

/-- The function `GetWatchMap`; an error result stands for the pair of the nil map and the
error. -/
def GetWatchMap (fs : FileSystem) (order : MapOrder) (config : Config) : Except String GoMap :=
  match GetFilesToWatch fs order config with
  | .error e => .error e
  | .ok filesToWatch => statAll fs filesToWatch []

/-! ## `cache-warmer.go` -/

/-- Go `reflect.DeepEqual` on two values of type `map[string]string` (`none` is the nil
map): both nil or both non-nil, the same length, and every key of the first is a key of the
second with an equal value. -/
def DeepEqual (x y : Option GoMap) : Bool :=
  match x, y with
  | none, none => true
  | some a, some b =>
    a.length == b.length && a.all (fun kv => mapIndex b kv.1 == some kv.2)
  | _, _ => false

/-- What the loop is seen to do in one tick. -/
inductive Event where
  | warmup : Event
  | sleep (duration : Nat) : Event
  deriving Repr, DecidableEq

/-- The surroundings of one tick: the filesystem at that moment, the order of the map range,
and what `symfony.CacheWarmup` returns if it is called. -/
structure World where
  fs : FileSystem
  order : MapOrder
  CacheWarmup : Except String String

/-- The state of `MainLoop` between two ticks: the variable `filesToWatch` (the baseline),
the number of ticks completed and the events so far, oldest first. -/
structure LoopState where
  filesToWatch : Option GoMap
  ticks : Nat
  trace : List Event

/-- The value of `updatedFiles` after `updatedFiles, _ := symfony.GetWatchMap(config)`:
the error is dropped and an error result leaves the nil map. -/
def updatedFilesOf (r : Except String GoMap) : Option GoMap :=
  match r with
  | .ok m => some m
  | .error _ => none

/-- One pass through the body of the loop in `MainLoop`. -/
def tick (config : Config) (w : World) (st : LoopState) : LoopState :=
  let updatedFiles := updatedFilesOf (GetWatchMap w.fs w.order config)
  if !DeepEqual st.filesToWatch updatedFiles then
    match w.CacheWarmup with
    | _ => { filesToWatch := updatedFiles, ticks := st.ticks + 1,
             trace := st.trace ++ [Event.warmup] }
  else
    { filesToWatch := st.filesToWatch, ticks := st.ticks + 1,
      trace := st.trace ++ [Event.sleep config.SleepTime] }

/-- The first `n` passes of the endless loop of `MainLoop`; pass `i` runs in `worlds i`. -/
def MainLoop (config : Config) (worlds : Nat → World) : Nat → LoopState → LoopState
  | 0, st => st
  | n + 1, st => MainLoop config (fun i => worlds (i + 1)) n (tick config (worlds 0) st)

/-! ## Go library: `strings.Split` and `strings.Join` with a one-character separator -/

/-- Split a character list at every occurrence of the separator; the result always has at
least one element. -/
def splitOn (sep : Char) : List Char → List (List Char)
  | [] => [[]]
  | c :: cs =>
    if c = sep then [] :: splitOn sep cs
    else
      match splitOn sep cs with
      | [] => [[c]]
      | h :: t => (c :: h) :: t

/-- Concatenate the elements with the separator between neighbours. -/
def joinOn (sep : Char) : List (List Char) → List Char
  | [] => []
  | [e] => e
  | e :: es => e ++ sep :: joinOn sep es

/-- Go `strings.Split(s, sep)` for a separator of one character; the slice it returns is
never nil. -/
def Strings.Split (s : String) (sep : Char) : List String :=
  (splitOn sep s.data).map String.mk

/-- Go `strings.Join(elems, sep)` for a separator of one character. -/
def Strings.Join (elems : List String) (sep : Char) : String :=
  ⟨joinOn sep (elems.map String.data)⟩

/-! ## `cache-warmer.go`: helpers -/

/-- The function `ParseCommaSeparated`; the result `none` would be the nil slice, which the
function never returns. -/
def ParseCommaSeparated (input : String) : Option (List String) :=
  if input = "" then some []
  else some (Strings.Split input ',')

/-! ## Go library: `regexp` -/

/-- A regular expression built from the operators the version pattern uses: the expression
that matches nothing, the empty string, one character of a class, alternation,
concatenation and repetition. -/
inductive Regex where
  | nothing : Regex
  | epsilon : Regex
  | cls (p : Char → Bool) : Regex
  | alt (a b : Regex) : Regex
  | seq (a b : Regex) : Regex
  | star (a : Regex) : Regex

namespace Regex

/-- A literal character. -/
def lit (c : Char) : Regex := cls (fun x => x == c)

/-- The operator `+`: one or more. -/
def plus (a : Regex) : Regex := seq a (star a)

/-- The operator `?`: zero or one. -/
def opt (a : Regex) : Regex := alt a epsilon

/-- Whether the expression matches the empty string. -/
def nullable : Regex → Bool
  | nothing => false
  | epsilon => true
  | cls _ => false
  | alt a b => nullable a || nullable b
  | seq a b => nullable a && nullable b
  | star _ => true

/-- The expression for what may follow the character `c`. -/
def deriv : Regex → Char → Regex
  | nothing, _ => nothing
  | epsilon, _ => nothing
  | cls p, c => if p c then epsilon else nothing
  | alt a b, c => alt (deriv a c) (deriv b c)
  | seq a b, c =>
    if nullable a then alt (seq (deriv a c) b) (deriv b c) else seq (deriv a c) b
  | star a, c => seq (deriv a c) (star a)

/-- Whether the whole text matches the expression: the result of Go `regexp.MatchString`
for a pattern anchored by `^` and `$`. -/
def matchAll (r : Regex) (text : List Char) : Bool := (text.foldl deriv r).nullable

end Regex

/-- The pattern `^v?\d+\.\d+\.\d+(-[a-zA-Z0-9]+(\.[a-zA-Z0-9]+)*)?$` of
`IsSemanticVersion`, without its two anchors. -/
def semVerPattern : Regex :=
  .seq (.opt (.lit 'v'))
    (.seq (.plus (.cls Char.isDigit))
      (.seq (.lit '.')
        (.seq (.plus (.cls Char.isDigit))
          (.seq (.lit '.')
            (.seq (.plus (.cls Char.isDigit))
              (.opt (.seq (.lit '-')
                (.seq (.plus (.cls Char.isAlphanum))
                  (.star (.seq (.lit '.') (.plus (.cls Char.isAlphanum))))))))))))

/-- The function `IsSemanticVersion`. -/
def IsSemanticVersion (version : String) : Bool := semVerPattern.matchAll version.data

/-! ## Notions used to state the properties -/

/-- The keys of a map, in entry order. -/
def mapKeys (m : GoMap) : List String := m.map Prod.fst

/-- Every non-directory entry below the directory at `path`, in walk order, each with its
path and the paths of the directories that lead to it, innermost first; `anc` is that list
for the directory at `path` itself (the walk root last). Entries of a directory that cannot
be read are not listed. -/
def filesBelow (path : String) (anc : List String) : Entries → List (String × List String)
  | .nil => []
  | .file name rest => (Join [path, name], anc) :: filesBelow path anc rest
  | .dir name children rest =>
    filesBelow (Join [path, name]) (Join [path, name] :: anc) children
      ++ filesBelow path anc rest
  | .baddir _ _ rest => filesBelow path anc rest

/-- Every non-directory entry at or below a walk root, with its ancestor directories. -/
def filesAt (root : String) : Node → List (String × List String)
  | .file => [(root, [])]
  | .dir entries => filesBelow root [root] entries
  | .baddir _ => []

/-- The rule of `FindFiles` for entering a directory, as a property of its path `d`: no
excluded fragment occurs in `d`, and if `d` starts with the vendor directory of the walk
root then vendor watching is on and the vendor list is empty or `d` starts with one of its
entries joined to that vendor directory. -/
def descends (config : Config) (root : String) (excludedDirs : List String)
    (vendorWatch : Bool) (vendorList : List String) (d : String) : Bool :=
  !excludedDirs.any (fun excludedDir => Contains d excludedDir) &&
    (!HasPrefix d (Join [root, config.DirSymfonyVendor]) ||
      (vendorWatch && (vendorList.isEmpty || vendorList.any
        (fun vendor => HasPrefix d (Join [root, config.DirSymfonyVendor, vendor])))))

/-- The rule of `FindFiles` for returning a file: the walk enters every directory that
leads to it, and its path does not end in `.gitignore`. -/
def wanted (config : Config) (root : String) (excludedDirs : List String)
    (vendorWatch : Bool) (vendorList : List String) (x : String × List String) : Bool :=
  x.2.all (descends config root excludedDirs vendorWatch vendorList) &&
    !HasSuffix x.1 ".gitignore"

/-- A name a directory entry can have: not empty, without separator, and neither `.` nor
`..`. -/
def ValidName (n : String) : Prop :=
  n.data ≠ [] ∧ '/' ∉ n.data ∧ n.data ≠ ['.'] ∧ n.data ≠ ['.', '.']

instance instDecidableValidName (n : String) : Decidable (ValidName n) := by
  unfold ValidName; infer_instance

/-- Every entry of the tree has a name a directory entry can have. -/
def validEntries : Entries → Bool
  | .nil => true
  | .file name rest => decide (ValidName name) && validEntries rest
  | .dir name children rest =>
    decide (ValidName name) && validEntries children && validEntries rest
  | .baddir name _ rest => decide (ValidName name) && validEntries rest

/-- Every entry below the node has a name a directory entry can have. -/
def validNode : Node → Bool
  | .dir entries => validEntries entries
  | _ => true

/-- A stack of kept path elements (last kept element first) as `filepath.Clean` builds it:
each element is a real name, or it is `..` in a relative path with nothing but `..` below
it. -/
def NormalStack (rooted : Bool) : List (List Char) → Prop
  | [] => True
  | el :: out =>
    NormalStack rooted out ∧
      ((el ≠ [] ∧ '/' ∉ el ∧ el ≠ ['.'] ∧ el ≠ ['.', '.']) ∨
        (el = ['.', '.'] ∧ rooted = false ∧ ∀ x ∈ out, x = ['.', '.']))

/-- A path that `filepath.Clean` leaves as it is. -/
def IsClean (q : String) : Prop := cleanChars q.data = q.data

/-- The texts a regular expression stands for. -/
def Regex.Matches : Regex → List Char → Prop
  | .nothing, _ => False
  | .epsilon, s => s = []
  | .cls p, s => ∃ c, s = [c] ∧ p c = true
  | .alt a b, s => Regex.Matches a s ∨ Regex.Matches b s
  | .seq a b, s => ∃ s1 s2, s = s1 ++ s2 ∧ Regex.Matches a s1 ∧ Regex.Matches b s2
  | .star a, s => ∃ parts : List (List Char), s = parts.flatten ∧
      ∀ part ∈ parts, part ≠ [] ∧ Regex.Matches a part

/-- A non-empty run of characters of one class. -/
def IsRun (p : Char → Bool) (r : List Char) : Prop := r ≠ [] ∧ ∀ c ∈ r, p c = true

/-- The shape of a semantic version in words: an optional leading `v`, three non-empty runs
of ASCII digits separated by `.`, and optionally `-` followed by one or more non-empty runs
of ASCII letters and digits separated by `.`; nothing before or after. -/
def SemVerShape (v : String) : Prop :=
  ∃ lead d1 d2 d3 tail, v.data = lead ++ d1 ++ '.' :: d2 ++ '.' :: d3 ++ tail ∧
    (lead = [] ∨ lead = ['v']) ∧
    IsRun Char.isDigit d1 ∧ IsRun Char.isDigit d2 ∧ IsRun Char.isDigit d3 ∧
    (tail = [] ∨ ∃ runs, runs ≠ [] ∧ (∀ r ∈ runs, IsRun Char.isAlphanum r) ∧
      tail = '-' :: joinOn '.' runs)

/-- The walks `GetFilesToWatch` makes, each with the vendor flag it passes to `FindFiles`:
every watched directory with the flag off and, when `VendorWatch` is on, every entry of the
vendor list joined to the vendor directory with the flag on. -/
def walkRoots (config : Config) : List (String × Bool) :=
  (symfonyDirs config).map (fun dir => (dir, false)) ++
    (if config.VendorWatch then
      config.VendorList.map (fun vendor => (Join [config.DirSymfonyVendor, vendor], true))
    else [])

/-! ## Concrete inputs -/

/-- The map range that yields the keys in the order they are written. -/
def writtenOrder : MapOrder := ⟨fun keys => keys, fun _ => List.Perm.refl _⟩

/-- The default configuration for the project directory `/proj`. -/
def projConfig : Config := Config.Init "/proj"

/-- The error `os.Stat` gives for a missing file. -/
def noSuchFile (p : String) : StatError :=
  ⟨true, "stat " ++ p ++ ": no such file or directory"⟩

/-- A project whose five watched directories are empty, with `/proj/public/index.php` and
one environment file `/proj/.env` that the glob finds and whose stat result is the
argument. -/
def envFs (envStat : Except StatError String) : FileSystem where
  lstat := fun p =>
    if p = "config" ∨ p = "src" ∨ p = "templates" ∨ p = "translations" ∨ p = "migrations" then
      .ok (.dir .nil)
    else .error ("lstat " ++ p ++ ": no such file or directory")
  glob := fun _ => .ok ["/proj/.env"]
  stat := fun p =>
    if p = "/proj/public/index.php" then .ok "t0"
    else if p = "/proj/.env" then envStat
    else .error (noSuchFile p)

/-- A tick surrounding over `envFs`. -/
def envWorld (envStat : Except StatError String) (warm : Except String String) : World :=
  ⟨envFs envStat, writtenOrder, warm⟩

/-- The fingerprint map of `envFs (.ok t)`. -/
def envMap (t : String) : GoMap := [("/proj/.env", t), ("/proj/public/index.php", "t0")]

/-- A filesystem given by the trees found at some paths: `os.Lstat` fails on every other
path, the environment-file glob matches nothing, and only `/proj/public/index.php` can be
stat-ed. -/
def treeFs (trees : List (String × Node)) : FileSystem where
  lstat := fun p =>
    match trees.find? (fun t => t.1 = p) with
    | some t => .ok t.2
    | none => .error ("lstat " ++ p ++ ": no such file or directory")
  glob := fun _ => .ok []
  stat := fun p =>
    if p = "/proj/public/index.php" then .ok "t0" else .error (noSuchFile p)

/-- The watched directories other than `src`, all empty. -/
def emptyDirs : List (String × Node) :=
  [("config", .dir .nil), ("templates", .dir .nil), ("translations", .dir .nil),
    ("migrations", .dir .nil)]

/-- The directory `src` with a file `.gitkeep`, a directory `.git` holding `HEAD`, and a
file `a.php`. -/
def gitTree : Node :=
  .dir (.file ".gitkeep" (.dir ".git" (.file "HEAD" .nil) (.file "a.php" .nil)))

/-- A project whose `src` is `gitTree`. -/
def gitFs : FileSystem := treeFs (("src", gitTree) :: emptyDirs)

/-- The directory `src` with `lib/vendor/w.php`, `vendor/v.php` and `a.php`. -/
def nestedVendorTree : Node :=
  .dir (.file "a.php" (.dir "lib" (.dir "vendor" (.file "w.php" .nil) .nil)
    (.dir "vendor" (.file "v.php" .nil) .nil)))

/-- A project whose `src` is `nestedVendorTree`. -/
def nestedVendorFs : FileSystem := treeFs (("src", nestedVendorTree) :: emptyDirs)

/-- A vendor directory holding the packages `other` and `symfony`, one file each. -/
def vendorEntries : Entries :=
  .dir "other" (.file "b.php" .nil) (.dir "symfony" (.file "c.php" .nil) .nil)

/-- A project run from its own directory: `src/a.php`, the vendor directory at `vendor` (and
at `/proj/vendor`), and the package `symfony` at `vendor/symfony`. -/
def vendorFs : FileSystem :=
  treeFs (("src", .dir (.file "a.php" .nil)) :: ("vendor", .dir vendorEntries) ::
    ("/proj/vendor", .dir vendorEntries) ::
    ("vendor/symfony", .dir (.file "c.php" .nil)) :: emptyDirs)

/-- The project directory `/proj` as a walk root: `src/a.php` and the vendor directory. -/
def projRootFs : FileSystem :=
  treeFs [("/proj", .dir (.dir "src" (.file "a.php" .nil) (.dir "vendor" vendorEntries .nil)))]

/-- A process started outside the project: the working directory has `src/other.php`, the
project has `/proj/src/a.php`. -/
def elsewhereFs : FileSystem :=
  treeFs (("src", .dir (.file "other.php" .nil)) :: ("/proj/src", .dir (.file "a.php" .nil)) ::
    emptyDirs)

/-- The default configuration for `/proj` with vendor watching on and the given vendor
list. -/
def vendorConfig (vendorList : List String) : Config :=
  { Config.Init "/proj" with VendorWatch := true, VendorList := vendorList }

/-- A directory `/empty` that is no project: nothing can be stat-ed below it. -/
def emptyConfig : Config := Config.Init "/empty"

/-- The directory `src` with `.gitignore`, `a.php` and `sub` holding `x.gitignore` and
`b.php`. -/
def ignoreTree : Node :=
  .dir (.file ".gitignore" (.file "a.php"
    (.dir "sub" (.file "b.php" (.file "x.gitignore" .nil)) .nil)))

/-- A filesystem whose `src` is `ignoreTree`. -/
def ignoreFs : FileSystem := treeFs [("src", ignoreTree)]

/-- A project run from its own directory whose `src` is `nestedVendorTree` and whose vendor
package `symfony` holds `c.php`. -/
def nestedVendorListFs : FileSystem :=
  treeFs (("src", nestedVendorTree) :: ("vendor/symfony", .dir (.file "c.php" .nil)) ::
    emptyDirs)

/-- The configuration `vendorConfig` with the source directory set to the vendor
directory. -/
def vendorSrcConfig (vendorList : List String) : Config :=
  { vendorConfig vendorList with DirSymfonySrc := "vendor" }

/-! ## Maps and `reflect.DeepEqual` -/

theorem mapIndex_eq_none_iff (m : GoMap) (k : String) :
    mapIndex m k = none ↔ k ∉ mapKeys m := by
  induction m with
  | nil => simp [mapIndex, mapKeys]
  | cons kv m ih =>
    obtain ⟨k1, v1⟩ := kv
    by_cases h : k1 = k
    · simp [mapIndex, mapKeys, h]
    · have h2 : ¬ k = k1 := fun e => h e.symm
      simp [mapIndex, h, h2, ih, mapKeys]

theorem mem_of_mapIndex (m : GoMap) (k v : String) (h : mapIndex m k = some v) :
    (k, v) ∈ m := by
  induction m with
  | nil => simp [mapIndex] at h
  | cons kv m ih =>
    obtain ⟨k1, v1⟩ := kv
    by_cases hk : k1 = k
    · simp [mapIndex, hk] at h
      simp [hk, h]
    · simp [mapIndex, hk] at h
      exact List.mem_cons_of_mem _ (ih h)

theorem mapIndex_of_mem (m : GoMap) (hn : (mapKeys m).Nodup) (k v : String)
    (h : (k, v) ∈ m) : mapIndex m k = some v := by
  induction m with
  | nil => simp at h
  | cons kv m ih =>
    obtain ⟨k1, v1⟩ := kv
    simp only [mapKeys, List.map_cons, List.nodup_cons] at hn
    rcases List.mem_cons.1 h with h1 | h1
    · injection h1 with hk hv
      simp [mapIndex, hk, hv]
    · have hne : k1 ≠ k := by
        intro e
        apply hn.1
        rw [e]
        exact List.mem_map.2 ⟨(k, v), h1, rfl⟩
      simp only [mapIndex, hne, if_false]
      exact ih hn.2 h1

theorem mapKeys_mapSet (m : GoMap) (k v : String) :
    mapKeys (mapSet m k v) = if k ∈ mapKeys m then mapKeys m else mapKeys m ++ [k] := by
  induction m with
  | nil => simp [mapSet, mapKeys]
  | cons kv m ih =>
    obtain ⟨k1, v1⟩ := kv
    by_cases hk : k1 = k
    · simp [mapSet, mapKeys, hk]
    · have h2 : ¬ k = k1 := fun e => hk e.symm
      simp only [mapKeys] at ih
      simp only [mapSet, hk, if_false, mapKeys, List.map_cons, List.mem_cons, h2, false_or, ih]
      split <;> simp

theorem mapSet_nodup (m : GoMap) (k v : String) (hn : (mapKeys m).Nodup) :
    (mapKeys (mapSet m k v)).Nodup := by
  rw [mapKeys_mapSet]
  split
  · exact hn
  · rename_i h
    exact List.Nodup.append hn (List.nodup_singleton k) (by simpa using h)

theorem statAll_nodup (fs : FileSystem) (files : List String) (m r : GoMap)
    (hn : (mapKeys m).Nodup) (h : statAll fs files m = .ok r) : (mapKeys r).Nodup := by
  induction files generalizing m with
  | nil =>
    simp only [statAll] at h
    injection h with h
    rw [← h]; exact hn
  | cons f rest ih =>
    simp only [statAll] at h
    split at h
    · cases h
    · exact ih _ (mapSet_nodup m f _ hn) h

theorem GetWatchMap_nodup (fs : FileSystem) (order : MapOrder) (config : Config) (r : GoMap)
    (h : GetWatchMap fs order config = .ok r) : (mapKeys r).Nodup := by
  simp only [GetWatchMap] at h
  split at h
  · cases h
  · exact statAll_nodup fs _ [] r (by simp [mapKeys]) h

theorem DeepEqual_some_iff (a b : GoMap) (ha : (mapKeys a).Nodup) (hb : (mapKeys b).Nodup) :
    DeepEqual (some a) (some b) = true ↔ ∀ k, mapIndex a k = mapIndex b k := by
  simp only [DeepEqual, Bool.and_eq_true, beq_iff_eq, List.all_eq_true]
  constructor
  · rintro ⟨hlen, hall⟩ k
    have hsub : mapKeys a ⊆ mapKeys b := by
      intro x hx
      obtain ⟨⟨k1, v1⟩, hm, rfl⟩ := List.mem_map.1 hx
      have := hall (k1, v1) hm
      by_contra hc
      rw [← mapIndex_eq_none_iff] at hc
      simp [hc] at this
    have hperm : (mapKeys a).Perm (mapKeys b) :=
      (List.Nodup.subperm ha hsub).perm_of_length_le (by simp [mapKeys, hlen])
    by_cases hk : k ∈ mapKeys a
    · obtain ⟨⟨k1, v1⟩, hm, rfl⟩ := List.mem_map.1 hk
      rw [mapIndex_of_mem a ha k1 v1 hm]
      exact (hall (k1, v1) hm).symm
    · have hk2 : k ∉ mapKeys b := fun h => hk (hperm.mem_iff.2 h)
      rw [(mapIndex_eq_none_iff a k).2 hk, (mapIndex_eq_none_iff b k).2 hk2]
  · intro h
    constructor
    · have hperm : (mapKeys a).Perm (mapKeys b) := by
        rw [List.perm_ext_iff_of_nodup ha hb]
        intro k
        rw [← not_iff_not, ← mapIndex_eq_none_iff, ← mapIndex_eq_none_iff, h k]
      simpa [mapKeys] using hperm.length_eq
    · rintro ⟨k, v⟩ hm
      rw [← h k]
      exact mapIndex_of_mem a ha k v hm

/-! ## The monitoring loop -/

theorem tick_trace (config : Config) (w : World) (st : LoopState) :
    (tick config w st).trace =
      if DeepEqual st.filesToWatch (updatedFilesOf (GetWatchMap w.fs w.order config)) then
        st.trace ++ [Event.sleep config.SleepTime]
      else st.trace ++ [Event.warmup] := by
  by_cases h : DeepEqual st.filesToWatch (updatedFilesOf (GetWatchMap w.fs w.order config)) = true
  · simp [tick, h]
  · simp [tick, h]

theorem tick_filesToWatch (config : Config) (w : World) (st : LoopState) :
    (tick config w st).filesToWatch =
      if DeepEqual st.filesToWatch (updatedFilesOf (GetWatchMap w.fs w.order config)) then
        st.filesToWatch
      else updatedFilesOf (GetWatchMap w.fs w.order config) := by
  by_cases h : DeepEqual st.filesToWatch (updatedFilesOf (GetWatchMap w.fs w.order config)) = true
  · simp [tick, h]
  · simp [tick, h]

theorem tick_ticks (config : Config) (w : World) (st : LoopState) :
    (tick config w st).ticks = st.ticks + 1 := by
  by_cases h : DeepEqual st.filesToWatch (updatedFilesOf (GetWatchMap w.fs w.order config)) = true
  · simp [tick, h]
  · simp [tick, h]

theorem MainLoop_ticks (config : Config) (n : Nat) (worlds : Nat → World) (st : LoopState) :
    (MainLoop config worlds n st).ticks = st.ticks + n := by
  induction n generalizing worlds st with
  | zero => rfl
  | succ n ih =>
    simp only [MainLoop]
    rw [ih, tick_ticks]
    omega

theorem maps_agree_iff (a b : GoMap) :
    (∀ k, mapIndex a k = mapIndex b k) ↔
      (∀ k, k ∈ mapKeys a ↔ k ∈ mapKeys b) ∧
        ∀ k ∈ mapKeys a, mapIndex a k = mapIndex b k := by
  constructor
  · intro h
    refine ⟨fun k => ?_, fun k _ => h k⟩
    rw [← not_iff_not, ← mapIndex_eq_none_iff, ← mapIndex_eq_none_iff, h k]
  · rintro ⟨hk, hv⟩ k
    by_cases hm : k ∈ mapKeys a
    · exact hv k hm
    · rw [(mapIndex_eq_none_iff a k).2 hm, (mapIndex_eq_none_iff b k).2 (fun h => hm ((hk k).2 h))]

theorem maps_differ_iff (a b : GoMap) :
    (¬ ∀ k, mapIndex a k = mapIndex b k) ↔
      ∃ k, (k ∈ mapKeys a ∧ k ∉ mapKeys b) ∨ (k ∉ mapKeys a ∧ k ∈ mapKeys b) ∨
        ∃ v1 v2, mapIndex a k = some v1 ∧ mapIndex b k = some v2 ∧ v1 ≠ v2 := by
  constructor
  · intro h
    push_neg at h
    obtain ⟨k, hk⟩ := h
    refine ⟨k, ?_⟩
    cases ha : mapIndex a k with
    | none =>
      cases hb : mapIndex b k with
      | none => rw [ha, hb] at hk; exact absurd rfl hk
      | some v2 =>
        right; left
        refine ⟨(mapIndex_eq_none_iff a k).1 ha, ?_⟩
        by_contra hc
        rw [(mapIndex_eq_none_iff b k).2 hc] at hb
        cases hb
    | some v1 =>
      cases hb : mapIndex b k with
      | none =>
        left
        refine ⟨?_, (mapIndex_eq_none_iff b k).1 hb⟩
        by_contra hc
        rw [(mapIndex_eq_none_iff a k).2 hc] at ha
        cases ha
      | some v2 =>
        right; right
        refine ⟨v1, v2, rfl, rfl, ?_⟩
        intro e
        rw [ha, hb, e] at hk
        exact hk rfl
  · rintro ⟨k, h | h | ⟨v1, v2, h1, h2, hne⟩⟩ hall
    · have := hall k
      rw [(mapIndex_eq_none_iff b k).2 h.2] at this
      exact (mapIndex_eq_none_iff a k).1 this h.1
    · have := hall k
      rw [(mapIndex_eq_none_iff a k).2 h.1] at this
      exact (mapIndex_eq_none_iff b k).1 this.symm h.2
    · have := hall k
      rw [h1, h2] at this
      injection this with this
      exact hne this

/-- C1: for a baseline and a fresh fingerprint map that were both built successfully, one
tick of `MainLoop` runs the cache warmup exactly when some path is a key of only one of the
two maps or is a key of both with different fingerprints, and it sleeps (with no warmup)
exactly when the two maps have the same keys and the same value at every key. -/
theorem tick_warmup_iff_maps_differ (config : Config) (w0 w : World) (st : LoopState)
    (baseline fresh : GoMap)
    (hb : GetWatchMap w0.fs w0.order config = .ok baseline)
    (hst : st.filesToWatch = some baseline)
    (hf : GetWatchMap w.fs w.order config = .ok fresh) :
    ((tick config w st).trace = st.trace ++ [Event.warmup] ↔
      ∃ k, (k ∈ mapKeys baseline ∧ k ∉ mapKeys fresh) ∨
        (k ∉ mapKeys baseline ∧ k ∈ mapKeys fresh) ∨
        ∃ v1 v2, mapIndex baseline k = some v1 ∧ mapIndex fresh k = some v2 ∧ v1 ≠ v2) ∧
    ((tick config w st).trace = st.trace ++ [Event.sleep config.SleepTime] ↔
      (∀ k, k ∈ mapKeys baseline ↔ k ∈ mapKeys fresh) ∧
        ∀ k ∈ mapKeys baseline, mapIndex baseline k = mapIndex fresh k) := by
  have hnb := GetWatchMap_nodup _ _ _ _ hb
  have hnf := GetWatchMap_nodup _ _ _ _ hf
  have hde := DeepEqual_some_iff baseline fresh hnb hnf
  rw [tick_trace, hst, hf]
  simp only [updatedFilesOf]
  rw [← maps_differ_iff, ← maps_agree_iff, ← hde]
  by_cases h : DeepEqual (some baseline) (some fresh) = true
  · simp [h]
  · simp [h]

/-- Witness of C1: the environment file was edited between the two scans. -/
theorem tick_warmup_iff_maps_differ_witness :
    GetWatchMap (envFs (.ok "t0")) writtenOrder projConfig = .ok (envMap "t0") ∧
    GetWatchMap (envFs (.ok "t1")) writtenOrder projConfig = .ok (envMap "t1") ∧
    ((tick projConfig (envWorld (.ok "t1") (.ok "")) ⟨some (envMap "t0"), 0, []⟩).trace
        = [] ++ [Event.warmup] ↔
      ∃ k, (k ∈ mapKeys (envMap "t0") ∧ k ∉ mapKeys (envMap "t1")) ∨
        (k ∉ mapKeys (envMap "t0") ∧ k ∈ mapKeys (envMap "t1")) ∨
        ∃ v1 v2, mapIndex (envMap "t0") k = some v1 ∧ mapIndex (envMap "t1") k = some v2 ∧
          v1 ≠ v2) :=
  ⟨rfl, rfl,
    (tick_warmup_iff_maps_differ projConfig (envWorld (.ok "t0") (.ok ""))
      (envWorld (.ok "t1") (.ok "")) ⟨some (envMap "t0"), 0, []⟩ (envMap "t0") (envMap "t1")
      rfl rfl rfl).1⟩

/-- C2, as the code behaves: when building the fingerprint map fails, `MainLoop` drops the
error and compares the baseline with the nil map. If the baseline is already the nil map the
tick only sleeps and the baseline stays; if the baseline is a map, the tick runs the cache
warmup and the nil map becomes the baseline. -/
theorem tick_on_failed_build (config : Config) (w : World) (st : LoopState) (e : String)
    (herr : GetWatchMap w.fs w.order config = .error e) :
    (st.filesToWatch = none →
      (tick config w st).trace = st.trace ++ [Event.sleep config.SleepTime] ∧
      (tick config w st).filesToWatch = st.filesToWatch) ∧
    (∀ baseline, st.filesToWatch = some baseline →
      (tick config w st).trace = st.trace ++ [Event.warmup] ∧
      (tick config w st).filesToWatch = none) := by
  constructor
  · intro h
    rw [tick_trace, tick_filesToWatch, herr, h]
    simp [updatedFilesOf, DeepEqual]
  · intro baseline h
    rw [tick_trace, tick_filesToWatch, herr, h]
    simp [updatedFilesOf, DeepEqual]

/-- Witness of the amended C2: the environment file vanished before its stat. -/
theorem tick_on_failed_build_witness :
    (∃ e, GetWatchMap (envFs (.error (noSuchFile "/proj/.env"))) writtenOrder projConfig
      = .error e) ∧
    ((tick projConfig (envWorld (.error (noSuchFile "/proj/.env")) (.ok ""))
        ⟨none, 1, [Event.warmup]⟩).trace
      = [Event.warmup] ++ [Event.sleep projConfig.SleepTime]) :=
  ⟨⟨_, rfl⟩,
    ((tick_on_failed_build projConfig (envWorld (.error (noSuchFile "/proj/.env")) (.ok ""))
      ⟨none, 1, [Event.warmup]⟩ _ rfl).1 rfl).1⟩

/-- Counterexample to C2 as stated: the environment file vanished between the glob and its
stat, so the build fails; the tick still runs the cache warmup and replaces the baseline by
the nil map. -/
theorem failed_build_is_change_event :
    (∃ e, GetWatchMap (envFs (.error (noSuchFile "/proj/.env"))) writtenOrder projConfig
      = .error e) ∧
    (tick projConfig (envWorld (.error (noSuchFile "/proj/.env")) (.ok ""))
        ⟨some (envMap "t0"), 0, []⟩).trace = [Event.warmup] ∧
    (tick projConfig (envWorld (.error (noSuchFile "/proj/.env")) (.ok ""))
        ⟨some (envMap "t0"), 0, []⟩).filesToWatch ≠ some (envMap "t0") :=
  ⟨⟨_, rfl⟩, rfl, by decide⟩

/-- C3: in a tick that detects a change, whatever `CacheWarmup` returns (a result or an
error), the tick ends with the map built in that tick as the baseline, the warmup recorded,
and the loop goes on: the remaining passes run from the state the tick left, and `n + 1`
passes complete `n + 1` ticks. -/
theorem tick_adopts_fresh_map (config : Config) (w : World) (st : LoopState)
    (warm : Except String String)
    (hchange : DeepEqual st.filesToWatch
      (updatedFilesOf (GetWatchMap w.fs w.order config)) = false) :
    (tick config ⟨w.fs, w.order, warm⟩ st).filesToWatch
      = updatedFilesOf (GetWatchMap w.fs w.order config) ∧
    (tick config ⟨w.fs, w.order, warm⟩ st).trace = st.trace ++ [Event.warmup] ∧
    ∀ (n : Nat) (worlds : Nat → World), worlds 0 = ⟨w.fs, w.order, warm⟩ →
      MainLoop config worlds (n + 1) st
        = MainLoop config (fun i => worlds (i + 1)) n (tick config ⟨w.fs, w.order, warm⟩ st) ∧
      (MainLoop config worlds (n + 1) st).ticks = st.ticks + (n + 1) := by
  refine ⟨?_, ?_, ?_⟩
  · rw [tick_filesToWatch]
    simp [hchange]
  · rw [tick_trace]
    simp [hchange]
  · intro n worlds hw
    refine ⟨?_, MainLoop_ticks config (n + 1) worlds st⟩
    simp only [MainLoop, hw]

/-- Witness of C3: the warmup command fails after an edit of the environment file. -/
theorem tick_adopts_fresh_map_witness :
    DeepEqual (some (envMap "t0"))
      (updatedFilesOf (GetWatchMap (envFs (.ok "t1")) writtenOrder projConfig)) = false ∧
    (tick projConfig (envWorld (.ok "t1") (.error "exit status 1"))
      ⟨some (envMap "t0"), 0, []⟩).filesToWatch = some (envMap "t1") :=
  ⟨by decide,
    (tick_adopts_fresh_map projConfig (envWorld (.ok "t1") (.ok "")) ⟨some (envMap "t0"), 0, []⟩
      (.error "exit status 1") (by decide)).1⟩

/-! ## Paths -/

theorem containsChars_iff (s sub : List Char) : containsChars s sub = true ↔ sub <:+: s := by
  induction s with
  | nil =>
    cases sub with
    | nil => simp [containsChars]
    | cons c cs => simp [containsChars]
  | cons c cs ih =>
    simp only [containsChars, Bool.or_eq_true, List.isPrefixOf_iff_prefix, ih]
    rw [List.infix_cons_iff]

theorem Contains_iff (s sub : String) : Contains s sub = true ↔ sub.data <:+: s.data :=
  containsChars_iff s.data sub.data

theorem HasPrefix_iff (s pre : String) : HasPrefix s pre = true ↔ pre.data <+: s.data := by
  simp [HasPrefix]

theorem splitSep_ne_nil (l : List Char) : splitSep l ≠ [] := by
  cases l with
  | nil => simp [splitSep]
  | cons c cs =>
    simp only [splitSep]
    split
    · simp
    · split <;> simp

theorem splitSep_noSep (n : List Char) (h : '/' ∉ n) : splitSep n = [n] := by
  induction n with
  | nil => rfl
  | cons c cs ih =>
    simp only [List.mem_cons, not_or] at h
    have hc : ¬ c = '/' := fun e => h.1 e.symm
    simp [splitSep, hc, ih h.2]

theorem splitSep_append (p n : List Char) (h : '/' ∉ n) :
    splitSep (p ++ '/' :: n) = splitSep p ++ [n] := by
  induction p with
  | nil => simp [splitSep, splitSep_noSep n h]
  | cons c cs ih =>
    by_cases hc : c = '/'
    · simp [splitSep, hc, ih]
    · simp only [List.cons_append, splitSep, hc, if_false]
      have ih2 : splitSep (cs.append ('/' :: n)) = splitSep cs ++ [n] := ih
      rw [ih2]
      cases hs : splitSep cs with
      | nil => exact absurd hs (splitSep_ne_nil cs)
      | cons a t => simp

theorem cleanStep_real (rooted : Bool) (out : List (List Char)) (el : List Char)
    (h1 : el ≠ []) (h2 : el ≠ ['.']) (h3 : el ≠ ['.', '.']) :
    cleanStep rooted out el = el :: out := by
  simp [cleanStep, h1, h2, h3]

theorem joinSep_concat (l : List (List Char)) (n : List Char) :
    joinSep (l ++ [n]) = if l = [] then n else joinSep l ++ '/' :: n := by
  induction l with
  | nil => simp [joinSep]
  | cons a t ih =>
    cases t with
    | nil => simp [joinSep]
    | cons b t2 =>
      simp only [List.cons_append, joinSep] at ih ⊢
      simp only [reduceCtorEq, if_false] at ih
      simp [ih]

theorem joinSep_concat_suffix (l : List (List Char)) (n : List Char) :
    n <:+ joinSep (l ++ [n]) := by
  rw [joinSep_concat]
  split
  · exact List.suffix_refl _
  · exact ⟨joinSep l ++ ['/'], by simp⟩

/-- The characters of `Join [p, n]` for an entry name `n`: the kept elements of `p`, then
`n`. -/
theorem Join_pair_data (p n : String) (hv : ValidName n) :
    (Join [p, n]).data =
      if p.data = [] then n.data
      else
        (if p.data.head? = some '/' then ['/'] else []) ++
          joinSep (((splitSep p.data).foldl
            (cleanStep (decide (p.data.head? = some '/'))) []).reverse ++ [n.data]) := by
  obtain ⟨h1, h2, h3, h4⟩ := hv
  by_cases hp : p.data = []
  · have hn : n.data.isEmpty = false := by simpa using h1
    have hh : ¬ n.data.head? = some '/' := by
      intro e
      cases hd : n.data with
      | nil => exact h1 hd
      | cons c cs =>
        rw [hd] at e h2
        simp at e
        simp [e] at h2
    simp [Join, hp, hn, joinSep, cleanChars, splitSep_noSep _ h2, cleanStep_real _ _ _ h1 h3 h4,
      hh, h1]
  · have hpe : p.data.isEmpty = false := by simpa using hp
    have hhead : (p.data ++ '/' :: n.data).head? = p.data.head? := by
      cases hd : p.data with
      | nil => exact absurd hd hp
      | cons c cs => simp
    have hne : joinSep (((splitSep p.data).foldl
        (cleanStep (decide (p.data.head? = some '/'))) []).reverse ++ [n.data]) ≠ [] := by
      rw [joinSep_concat]
      split
      · exact h1
      · simp
    simp only [Join, List.map_cons, List.map_nil, List.dropWhile_cons, hpe, Bool.false_eq_true,
      if_false, joinSep, cleanChars, hhead, splitSep_append _ _ h2, List.foldl_append,
      List.foldl_cons, List.foldl_nil, cleanStep_real _ _ _ h1 h3 h4, List.reverse_cons, hp]
    by_cases hr : p.data.head? = some '/'
    · simp [hr]
    · simp only [hr, decide_False, Bool.false_eq_true, if_false, List.nil_append]
      rw [if_neg]
      simpa [hr] using hne

theorem Join_pair_lastName (p n : String) (hv : ValidName n) :
    n.data <:+ (Join [p, n]).data := by
  rw [Join_pair_data p n hv]
  split
  · exact List.suffix_refl _
  · exact (joinSep_concat_suffix _ _).trans (List.suffix_append _ _)

/-- The path of a directory entry contains every substring of the entry's name. -/
theorem Join_contains_name (q n e : String) (hv : ValidName n) (he : Contains n e = true) :
    Contains (Join [q, n]) e = true := by
  rw [Contains_iff] at he ⊢
  exact he.trans (Join_pair_lastName q n hv).isInfix

theorem splitSep_mem_noSep (l : List Char) : ∀ e ∈ splitSep l, '/' ∉ e := by
  induction l with
  | nil => simp [splitSep]
  | cons c cs ih =>
    intro e he
    by_cases hc : c = '/'
    · simp only [splitSep, hc, if_true, List.mem_cons] at he
      rcases he with rfl | he
      · simp
      · exact ih e he
    · simp only [splitSep, hc, if_false] at he
      cases hs : splitSep cs with
      | nil => exact absurd hs (splitSep_ne_nil cs)
      | cons a t =>
        rw [hs] at he ih
        simp only [List.mem_cons] at he
        rcases he with rfl | he
        · have ha := ih a (List.mem_cons_self _ _)
          simp only [List.mem_cons, not_or]
          exact ⟨fun e => hc e.symm, ha⟩
        · exact ih e (List.mem_cons_of_mem _ he)

theorem splitSep_prepend (e rest : List Char) (h : '/' ∉ e) :
    splitSep (e ++ '/' :: rest) = e :: splitSep rest := by
  induction e with
  | nil => simp [splitSep]
  | cons c cs ih =>
    simp only [List.mem_cons, not_or] at h
    have hc : ¬ c = '/' := fun e => h.1 e.symm
    have ih2 : splitSep (cs.append ('/' :: rest)) = cs :: splitSep rest := ih h.2
    simp only [List.cons_append, splitSep, hc, if_false]
    rw [ih2]

theorem splitSep_joinSep (l : List (List Char)) (hl : l ≠ []) (h : ∀ e ∈ l, '/' ∉ e) :
    splitSep (joinSep l) = l := by
  induction l with
  | nil => exact absurd rfl hl
  | cons a t ih =>
    cases t with
    | nil => simpa [joinSep] using splitSep_noSep a (h a (List.mem_cons_self _ _))
    | cons b t2 =>
      simp only [joinSep]
      rw [splitSep_prepend _ _ (h a (List.mem_cons_self _ _))]
      have := ih (by simp) (fun e he => h e (List.mem_cons_of_mem _ he))
      simp only [joinSep] at this
      rw [this]

theorem NormalStack_elem (rooted : Bool) (out : List (List Char)) (h : NormalStack rooted out) :
    ∀ e ∈ out, e ≠ [] ∧ '/' ∉ e := by
  induction out with
  | nil => simp
  | cons a t ih =>
    intro e he
    rcases List.mem_cons.1 he with rfl | he
    · rcases h.2 with hr | hd
      · exact ⟨hr.1, hr.2.1⟩
      · rw [hd.1]; simp
    · exact ih h.1 e he

theorem cleanStep_normal (rooted : Bool) (out : List (List Char)) (el : List Char)
    (hs : '/' ∉ el) (h : NormalStack rooted out) : NormalStack rooted (cleanStep rooted out el) := by
  unfold cleanStep
  by_cases h1 : el = []
  · simpa [h1] using h
  by_cases h2 : el = ['.']
  · simpa [h1, h2] using h
  by_cases h3 : el = ['.', '.']
  · simp only [h1, h2, h3, if_false, if_true]
    subst h3
    cases out with
    | nil =>
      cases rooted
      · simp [NormalStack]
      · simp [NormalStack]
    | cons top rest =>
      by_cases ht : top = ['.', '.']
      · simp only [ht, if_true]
        cases rooted
        · subst ht
          refine ⟨h, Or.inr ⟨rfl, rfl, ?_⟩⟩
          intro x hx
          rcases List.mem_cons.1 hx with rfl | hx
          · rfl
          · rcases h.2 with hr | hd
            · exact absurd rfl hr.2.2.2
            · exact hd.2.2 x hx
        · simpa [ht] using h
      · simp only [ht, if_false]
        exact h.1
  · simp only [h1, h2, h3, if_false]
    exact ⟨h, Or.inl ⟨h1, hs, h2, h3⟩⟩

theorem foldl_cleanStep_normal (rooted : Bool) (l acc : List (List Char))
    (hl : ∀ e ∈ l, '/' ∉ e) (h : NormalStack rooted acc) :
    NormalStack rooted (l.foldl (cleanStep rooted) acc) := by
  induction l generalizing acc with
  | nil => exact h
  | cons a t ih =>
    simp only [List.foldl_cons]
    exact ih _ (fun e he => hl e (List.mem_cons_of_mem _ he))
      (cleanStep_normal rooted acc a (hl a (List.mem_cons_self _ _)) h)

theorem foldl_cleanStep_reverse (rooted : Bool) (out : List (List Char))
    (h : NormalStack rooted out) : out.reverse.foldl (cleanStep rooted) [] = out := by
  induction out with
  | nil => rfl
  | cons a t ih =>
    rw [List.reverse_cons, List.foldl_append, ih h.1]
    simp only [List.foldl_cons, List.foldl_nil]
    rcases h.2 with hr | hd
    · exact cleanStep_real rooted t a hr.1 hr.2.2.1 hr.2.2.2
    · obtain ⟨rfl, rfl, hall⟩ := hd
      cases t with
      | nil => simp [cleanStep]
      | cons top rest =>
        have : top = ['.', '.'] := hall top (List.mem_cons_self _ _)
        simp [cleanStep, this]

theorem joinSep_head (l : List (List Char)) (e0 : List Char) (t : List (List Char))
    (hl : l = e0 :: t) (h1 : e0 ≠ []) : (joinSep l).head? = e0.head? := by
  subst hl
  cases e0 with
  | nil => exact absurd rfl h1
  | cons c cs =>
    cases t with
    | nil => simp [joinSep]
    | cons b t2 => simp [joinSep]

/-- The function `filepath.Clean` is idempotent. -/
theorem cleanChars_idem (x : List Char) : cleanChars (cleanChars x) = cleanChars x := by
  have hN : NormalStack (decide (x.head? = some '/'))
      ((splitSep x).foldl (cleanStep (decide (x.head? = some '/'))) []) :=
    foldl_cleanStep_normal _ _ [] (splitSep_mem_noSep x) trivial
  have hel := NormalStack_elem _ _ hN
  have hre := foldl_cleanStep_reverse _ _ hN
  generalize hout : (splitSep x).foldl (cleanStep (decide (x.head? = some '/'))) [] = out
    at hN hel hre
  have hx : cleanChars x =
      if x.head? = some '/' then '/' :: joinSep out.reverse
      else if joinSep out.reverse = [] then ['.'] else joinSep out.reverse := by
    simp only [cleanChars, hout, decide_eq_true_eq]
  rw [hx]
  have hrev : ∀ e ∈ out.reverse, '/' ∉ e := fun e he => (hel e (List.mem_reverse.1 he)).2
  by_cases hb : x.head? = some '/'
  · simp only [hb, if_true, decide_True] at hN hre ⊢
    by_cases ho : out = []
    · subst ho
      simp [cleanChars, splitSep, joinSep, cleanStep]
    · have hrne : out.reverse ≠ [] := by simpa using ho
      simp only [cleanChars, List.head?_cons, decide_True, if_true, splitSep,
        splitSep_joinSep _ hrne hrev, List.foldl_cons, cleanStep, hre]
  · simp only [hb, if_false, decide_False] at hN hre ⊢
    by_cases hbody : joinSep out.reverse = []
    · simp [hbody, cleanChars, splitSep, cleanStep, joinSep]
    · simp only [hbody, if_false]
      have hrne : out.reverse ≠ [] := by
        intro e
        rw [e] at hbody
        exact hbody rfl
      obtain ⟨e0, t, ht⟩ := List.exists_cons_of_ne_nil hrne
      have he0 := hel e0 (List.mem_reverse.1 (ht ▸ List.mem_cons_self _ _))
      have hhead : ¬ (joinSep out.reverse).head? = some '/' := by
        rw [joinSep_head _ e0 t ht he0.1]
        intro e
        cases e0 with
        | nil => exact he0.1 rfl
        | cons c cs =>
          simp at e
          exact he0.2 (by simp [e])
      simp only [cleanChars, hhead, decide_False, splitSep_joinSep _ hrne hrev, hre,
        Bool.false_eq_true, if_false, hbody]

theorem Join_empty_or_clean (elem : List String) : Join elem = "" ∨ IsClean (Join elem) := by
  unfold Join
  split
  · exact Or.inl rfl
  · exact Or.inr (cleanChars_idem _)

theorem Join_pair_isClean (q n : String) (hv : ValidName n) : IsClean (Join [q, n]) := by
  rcases Join_empty_or_clean [q, n] with h | h
  · have hs := Join_pair_lastName q n hv
    rw [h] at hs
    have : n.data = [] := by simpa using hs
    exact absurd this hv.1
  · exact h

theorem Join_pair_ne_dot (q n : String) (hv : ValidName n) : (Join [q, n]).data ≠ ['.'] := by
  intro h
  have hs := Join_pair_lastName q n hv
  rw [h] at hs
  obtain ⟨pre, hpre⟩ := hs
  cases pre with
  | nil => exact hv.2.2.1 (by simpa using hpre)
  | cons c cs =>
    simp only [List.cons_append, List.cons.injEq, List.append_eq_nil] at hpre
    exact hv.1 hpre.2.2

/-- Below a cleaned directory path other than `.`, the path of an entry extends the path of
the directory. -/
theorem Join_pair_extends (q n : String) (hq : IsClean q) (hne : q.data ≠ ['.'])
    (hv : ValidName n) : q.data <+: (Join [q, n]).data := by
  have hq0 : q.data ≠ [] := by
    intro h
    unfold IsClean at hq
    rw [h] at hq
    simp [cleanChars, splitSep, cleanStep, joinSep] at hq
  rw [Join_pair_data q n hv, if_neg hq0, joinSep_concat]
  unfold IsClean cleanChars at hq
  simp only [decide_eq_true_eq] at hq
  generalize (splitSep q.data).foldl (cleanStep (decide (q.data.head? = some '/'))) [] = out
    at hq ⊢
  by_cases hb : q.data.head? = some '/'
  · simp only [hb, if_true] at hq ⊢
    by_cases ho : out.reverse = []
    · simp only [ho, if_true, joinSep] at hq ⊢
      rw [← hq]
      exact ⟨n.data, rfl⟩
    · simp only [ho, if_false]
      rw [← hq]
      exact ⟨'/' :: n.data, by simp⟩
  · simp only [hb, if_false] at hq ⊢
    by_cases hbody : joinSep out.reverse = []
    · simp only [hbody, if_true] at hq
      exact absurd hq.symm hne
    · simp only [hbody, if_false] at hq
      have ho : out.reverse ≠ [] := by
        intro e
        rw [e] at hbody
        exact hbody rfl
      simp only [ho, if_false, List.nil_append]
      rw [hq]
      exact ⟨'/' :: n.data, rfl⟩

theorem filesBelow_extends (r : List Char) (es : Entries) (hv : validEntries es = true)
    (path : String) (anc : List String) (hq : IsClean path) (hne : path.data ≠ ['.'])
    (hr : r <+: path.data) : ∀ x ∈ filesBelow path anc es, r <+: x.1.data := by
  induction es generalizing path anc with
  | nil => intro x hx; simp [filesBelow] at hx
  | file name rest ih =>
    simp only [validEntries, Bool.and_eq_true, decide_eq_true_eq] at hv
    intro x hx
    simp only [filesBelow, List.mem_cons] at hx
    rcases hx with rfl | hx
    · exact hr.trans (Join_pair_extends path name hq hne hv.1)
    · exact ih hv.2 path anc hq hne hr x hx
  | dir name children rest ihc ihr =>
    simp only [validEntries, Bool.and_eq_true, decide_eq_true_eq] at hv
    intro x hx
    simp only [filesBelow, List.mem_append] at hx
    rcases hx with hx | hx
    · exact ihc hv.1.2 _ _ (Join_pair_isClean path name hv.1.1)
        (Join_pair_ne_dot path name hv.1.1)
        (hr.trans (Join_pair_extends path name hq hne hv.1.1)) x hx
    · exact ihr hv.2 path anc hq hne hr x hx
  | baddir name err rest ih =>
    simp only [validEntries, Bool.and_eq_true, decide_eq_true_eq] at hv
    intro x hx
    simp only [filesBelow] at hx
    exact ih hv.2 path anc hq hne hr x hx

/-- Every file at or below a cleaned walk root other than `.` has a path that starts with
the root. -/
theorem filesAt_extends (root : String) (node : Node) (hv : validNode node = true)
    (hroot : root = "" ∨ IsClean root) (hne : root ≠ ".") :
    ∀ x ∈ filesAt root node, HasPrefix x.1 root = true := by
  intro x hx
  rw [HasPrefix_iff]
  cases node with
  | file =>
    simp only [filesAt, List.mem_singleton] at hx
    rw [hx]
  | dir entries =>
    simp only [filesAt] at hx
    rcases hroot with h | h
    · rw [h]
      exact List.nil_prefix
    · have hne2 : root.data ≠ ['.'] := by
        intro e
        apply hne
        exact String.ext e
      exact filesBelow_extends root.data entries hv root [root] h hne2 (List.prefix_refl _) x hx
  | baddir err => simp [filesAt] at hx

/-! ## The walk of `FindFiles` -/

theorem findFilesFn_err (config : Config) (root : String) (excludedDirs : List String)
    (vendorWatch : Bool) (vendorList : List String) (files : List String) (path : String)
    (isDir : Bool) (e : String) :
    findFilesFn config root excludedDirs vendorWatch vendorList files path isDir (some e)
      = (files, some (.fail e)) := rfl

theorem findFilesFn_file (config : Config) (root : String) (excludedDirs : List String)
    (vendorWatch : Bool) (vendorList : List String) (files : List String) (path : String) :
    findFilesFn config root excludedDirs vendorWatch vendorList files path false none
      = (if HasSuffix path ".gitignore" then files else files ++ [path], none) := by
  simp only [findFilesFn, Bool.false_and, List.any_eq_true, Bool.false_eq_true, and_false,
    exists_false, if_false]
  cases HasSuffix path ".gitignore" <;> simp

theorem findFilesFn_dir (config : Config) (root : String) (excludedDirs : List String)
    (vendorWatch : Bool) (vendorList : List String) (files : List String) (path : String) :
    findFilesFn config root excludedDirs vendorWatch vendorList files path true none
      = (files, if descends config root excludedDirs vendorWatch vendorList path then none
          else some .skipDir) := by
  simp only [findFilesFn, descends, Bool.true_and]
  by_cases h1 : (excludedDirs.any (fun excludedDir => Contains path excludedDir)) = true
  · simp [h1]
  · by_cases h2 : HasPrefix path (Join [root, config.DirSymfonyVendor]) = true
    · by_cases h3 : vendorWatch = true
      · cases vendorList with
        | nil => simp [h1, h2, h3]
        | cons v vs =>
          by_cases h4 : ((v :: vs).any
            (fun vendor => HasPrefix path (Join [root, config.DirSymfonyVendor, vendor]))) = true
          · simp only [h1, h2, h3, h4]; simp
          · simp only [h1, h2, h3, h4]; simp
      · simp [h1, h2, h3]
    · simp [h1, h2]

theorem filesBelow_anc (es : Entries) (path : String) (anc : List String) :
    ∀ x ∈ filesBelow path anc es, ∀ d ∈ anc, d ∈ x.2 := by
  induction es generalizing path anc with
  | nil => intro x hx; simp [filesBelow] at hx
  | file name rest ih =>
    intro x hx d hd
    simp only [filesBelow, List.mem_cons] at hx
    rcases hx with rfl | hx
    · exact hd
    · exact ih path anc x hx d hd
  | dir name children rest ihc ihr =>
    intro x hx d hd
    simp only [filesBelow, List.mem_append] at hx
    rcases hx with hx | hx
    · exact ihc _ _ x hx d (List.mem_cons_of_mem _ hd)
    · exact ihr path anc x hx d hd
  | baddir name err rest ih =>
    intro x hx d hd
    simp only [filesBelow] at hx
    exact ih path anc x hx d hd

theorem filter_wanted_blocked (config : Config) (root : String) (excludedDirs : List String)
    (vendorWatch : Bool) (vendorList : List String) (es : Entries) (path : String)
    (anc : List String) (d : String) (hd : d ∈ anc)
    (hb : descends config root excludedDirs vendorWatch vendorList d = false) :
    (filesBelow path anc es).filter (wanted config root excludedDirs vendorWatch vendorList)
      = [] := by
  rw [List.filter_eq_nil_iff]
  intro x hx hw
  simp only [wanted, Bool.and_eq_true, List.all_eq_true] at hw
  have := hw.1 d (filesBelow_anc es path anc x hx d hd)
  rw [hb] at this
  cases this

theorem walkEntries_findFiles (config : Config) (root : String) (excludedDirs : List String)
    (vendorWatch : Bool) (vendorList : List String) (es : Entries) (path : String)
    (anc : List String) (files : List String)
    (hanc : ∀ d ∈ anc, descends config root excludedDirs vendorWatch vendorList d = true) :
    ∃ l,
      (walkEntries (findFilesFn config root excludedDirs vendorWatch vendorList)
        path es files).1 = files ++ l ∧
      l <+: ((filesBelow path anc es).filter
        (wanted config root excludedDirs vendorWatch vendorList)).map Prod.fst ∧
      ((walkEntries (findFilesFn config root excludedDirs vendorWatch vendorList)
        path es files).2 = none →
        l = ((filesBelow path anc es).filter
          (wanted config root excludedDirs vendorWatch vendorList)).map Prod.fst) := by
  induction es generalizing path anc files with
  | nil => exact ⟨[], by simp [walkEntries], by simp [filesBelow], by simp [filesBelow]⟩
  | file name rest ih =>
    have hall : anc.all (descends config root excludedDirs vendorWatch vendorList) = true :=
      List.all_eq_true.2 hanc
    by_cases hs : HasSuffix (Join [path, name]) ".gitignore" = true
    · obtain ⟨l, h1, h2, h3⟩ := ih path anc files hanc
      refine ⟨l, ?_, ?_, ?_⟩
      · simpa [walkEntries, findFilesFn_file, hs] using h1
      · simpa [filesBelow, List.filter_cons, wanted, hs] using h2
      · simpa [walkEntries, findFilesFn_file, filesBelow, List.filter_cons, wanted, hs] using h3
    · obtain ⟨l, h1, h2, h3⟩ := ih path anc (files ++ [Join [path, name]]) hanc
      refine ⟨Join [path, name] :: l, ?_, ?_, ?_⟩
      · simpa [walkEntries, findFilesFn_file, hs] using h1
      · simpa [filesBelow, List.filter_cons, wanted, hs, hall, List.cons_prefix_cons] using h2
      · simpa [walkEntries, findFilesFn_file, filesBelow, List.filter_cons, wanted, hs, hall]
          using h3
  | dir name children rest ihc ihr =>
    by_cases hd : descends config root excludedDirs vendorWatch vendorList (Join [path, name])
        = true
    · have hanc2 : ∀ d ∈ Join [path, name] :: anc,
          descends config root excludedDirs vendorWatch vendorList d = true := by
        intro d hmem
        rcases List.mem_cons.1 hmem with rfl | hmem
        · exact hd
        · exact hanc d hmem
      obtain ⟨l1, a1, a2, a3⟩ := ihc (Join [path, name]) (Join [path, name] :: anc) files hanc2
      cases hr : (walkEntries (findFilesFn config root excludedDirs vendorWatch vendorList)
          (Join [path, name]) children files).2 with
      | some e =>
        refine ⟨l1, ?_, ?_, ?_⟩
        · simp only [walkEntries, findFilesFn_dir, hd, if_true]
          split
          · rename_i s2 e2 heq
            rw [heq] at a1
            exact a1
          · rename_i s2 heq
            rw [heq] at hr
            cases hr
        · simp only [filesBelow, List.filter_append, List.map_append]
          exact a2.trans (List.prefix_append _ _)
        · simp only [walkEntries, findFilesFn_dir, hd, if_true]
          split
          · intro hc; cases hc
          · rename_i s2 heq
            rw [heq] at hr
            cases hr
      | none =>
        have a3 := a3 hr
        obtain ⟨l2, b1, b2, b3⟩ := ihr path anc (files ++ l1) hanc
        have hw : walkEntries (findFilesFn config root excludedDirs vendorWatch vendorList)
            path (.dir name children rest) files
            = walkEntries (findFilesFn config root excludedDirs vendorWatch vendorList)
              path rest (files ++ l1) := by
          simp only [walkEntries, findFilesFn_dir, hd, if_true]
          split
          · rename_i s2 e2 heq
            rw [heq] at hr
            cases hr
          · rename_i s2 heq
            rw [heq] at a1
            simp only at a1
            rw [a1]
        refine ⟨l1 ++ l2, ?_, ?_, ?_⟩
        · rw [hw, b1, List.append_assoc]
        · simp only [filesBelow, List.filter_append, List.map_append]
          rw [← a3]
          exact (List.prefix_append_right_inj l1).2 b2
        · rw [hw]
          intro h
          simp only [filesBelow, List.filter_append, List.map_append]
          rw [← a3, b3 h]
    · have hd2 : descends config root excludedDirs vendorWatch vendorList (Join [path, name])
          = false := by simpa using hd
      have hblk := filter_wanted_blocked config root excludedDirs vendorWatch vendorList
        children (Join [path, name]) (Join [path, name] :: anc) (Join [path, name])
        (List.mem_cons_self _ _) hd2
      obtain ⟨l, h1, h2, h3⟩ := ihr path anc files hanc
      refine ⟨l, ?_, ?_, ?_⟩
      · simpa [walkEntries, findFilesFn_dir, hd2] using h1
      · simpa [filesBelow, List.filter_append, hblk] using h2
      · simpa [walkEntries, findFilesFn_dir, hd2, filesBelow, List.filter_append, hblk] using h3
  | baddir name err rest ih =>
    by_cases hd : descends config root excludedDirs vendorWatch vendorList (Join [path, name])
        = true
    · refine ⟨[], ?_, List.nil_prefix, ?_⟩
      · simp [walkEntries, findFilesFn_dir, findFilesFn_err, hd]
      · simp [walkEntries, findFilesFn_dir, findFilesFn_err, hd]
    · have hd2 : descends config root excludedDirs vendorWatch vendorList (Join [path, name])
          = false := by simpa using hd
      obtain ⟨l, h1, h2, h3⟩ := ih path anc files hanc
      refine ⟨l, ?_, ?_, ?_⟩
      · simpa [walkEntries, findFilesFn_dir, hd2] using h1
      · simpa [filesBelow] using h2
      · simpa [walkEntries, findFilesFn_dir, hd2, filesBelow] using h3

theorem FindFiles_lstat_error (fs : FileSystem) (config : Config) (root : String)
    (excludedDirs : List String) (vendorWatch : Bool) (vendorList : List String) (e : String)
    (h : fs.lstat root = .error e) :
    FindFiles fs config root excludedDirs vendorWatch vendorList = ([], some e) := by
  simp [FindFiles, WalkDir, h, findFilesFn_err]

theorem FindFiles_spec (fs : FileSystem) (config : Config) (root : String)
    (excludedDirs : List String) (vendorWatch : Bool) (vendorList : List String) (node : Node)
    (h : fs.lstat root = .ok node) :
    (FindFiles fs config root excludedDirs vendorWatch vendorList).1 <+:
        ((filesAt root node).filter
          (wanted config root excludedDirs vendorWatch vendorList)).map Prod.fst ∧
    ((FindFiles fs config root excludedDirs vendorWatch vendorList).2 = none →
      (FindFiles fs config root excludedDirs vendorWatch vendorList).1 =
        ((filesAt root node).filter
          (wanted config root excludedDirs vendorWatch vendorList)).map Prod.fst) := by
  cases node with
  | file =>
    by_cases hs : HasSuffix root ".gitignore" = true
    · simp [FindFiles, WalkDir, h, findFilesFn_file, filesAt, wanted, hs]
    · simp [FindFiles, WalkDir, h, findFilesFn_file, filesAt, wanted, hs]
  | dir entries =>
    by_cases hd : descends config root excludedDirs vendorWatch vendorList root = true
    · obtain ⟨l, h1, h2, h3⟩ := walkEntries_findFiles config root excludedDirs vendorWatch
        vendorList entries root [root] [] (by simpa using hd)
      simp only [List.nil_append] at h1
      simp only [FindFiles, WalkDir, h, findFilesFn_dir, hd, if_true, filesAt]
      rw [h1]
      exact ⟨h2, h3⟩
    · have hd2 : descends config root excludedDirs vendorWatch vendorList root = false := by
        simpa using hd
      have hblk := filter_wanted_blocked config root excludedDirs vendorWatch vendorList
        entries root [root] root (List.mem_cons_self _ _) hd2
      simp [FindFiles, WalkDir, h, findFilesFn_dir, hd2, filesAt, hblk]
  | baddir err =>
    by_cases hd : descends config root excludedDirs vendorWatch vendorList root = true
    · simp [FindFiles, WalkDir, h, findFilesFn_dir, findFilesFn_err, hd, filesAt]
    · have hd2 : descends config root excludedDirs vendorWatch vendorList root = false := by
        simpa using hd
      simp [FindFiles, WalkDir, h, findFilesFn_dir, hd2, filesAt]

theorem FindFiles_sound (fs : FileSystem) (config : Config) (root : String)
    (excludedDirs : List String) (vendorWatch : Bool) (vendorList : List String) (p : String)
    (hp : p ∈ (FindFiles fs config root excludedDirs vendorWatch vendorList).1) :
    ∃ node a, fs.lstat root = .ok node ∧ (p, a) ∈ filesAt root node ∧
      (∀ d ∈ a, descends config root excludedDirs vendorWatch vendorList d = true) ∧
      HasSuffix p ".gitignore" = false := by
  cases h : fs.lstat root with
  | error e =>
    rw [FindFiles_lstat_error fs config root excludedDirs vendorWatch vendorList e h] at hp
    simp at hp
  | ok node =>
    have hsub := (FindFiles_spec fs config root excludedDirs vendorWatch vendorList node h).1
    have hm := hsub.subset hp
    obtain ⟨⟨q, a⟩, hq, rfl⟩ := List.mem_map.1 hm
    rw [List.mem_filter] at hq
    simp only [wanted, Bool.and_eq_true, List.all_eq_true, Bool.not_eq_true'] at hq
    exact ⟨node, a, rfl, hq.1, hq.2.1, hq.2.2⟩

theorem descends_not_excluded (config : Config) (root : String) (excludedDirs : List String)
    (vendorWatch : Bool) (vendorList : List String) (d : String)
    (h : descends config root excludedDirs vendorWatch vendorList d = true) :
    ∀ e ∈ excludedDirs, Contains d e = false := by
  simp only [descends, Bool.and_eq_true, Bool.not_eq_true', List.any_eq_false] at h
  intro e he
  simpa using h.1 e he

/-! ## The enumeration of `GetFilesToWatch` -/

theorem watchDirs_ok (fs : FileSystem) (config : Config) (excludedDirs : List String)
    (dirs acc l : List String) (h : watchDirs fs config excludedDirs dirs acc = .ok l) :
    ∀ p, p ∈ l ↔ p ∈ acc ∨
      ∃ dir ∈ dirs, p ∈ (FindFiles fs config dir excludedDirs false config.VendorList).1 := by
  induction dirs generalizing acc with
  | nil =>
    simp only [watchDirs] at h
    injection h with h
    intro p
    simp [h]
  | cons d rest ih =>
    simp only [watchDirs] at h
    split at h
    · cases h
    · rename_i files heq
      intro p
      rw [ih _ h p, List.mem_append]
      simp only [List.mem_cons, exists_eq_or_imp, heq]
      tauto

theorem watchVendors_ok (fs : FileSystem) (config : Config) (excludedDirs : List String)
    (vendors acc l : List String) (h : watchVendors fs config excludedDirs vendors acc = .ok l) :
    ∀ p, p ∈ l ↔ p ∈ acc ∨
      ∃ vendor ∈ vendors, p ∈ (FindFiles fs config (Join [config.DirSymfonyVendor, vendor])
        excludedDirs true config.VendorList).1 := by
  induction vendors generalizing acc with
  | nil =>
    simp only [watchVendors] at h
    injection h with h
    intro p
    simp [h]
  | cons d rest ih =>
    simp only [watchVendors] at h
    split at h
    · cases h
    · rename_i files heq
      intro p
      rw [ih _ h p, List.mem_append]
      simp only [List.mem_cons, exists_eq_or_imp, heq]
      tauto

/-- What a successful `GetFilesToWatch` returns: the matches of the environment-file glob,
the front-controller file, the files found by walking each watched directory with vendor
watching off and, when vendor watching is on, the files found by walking each listed vendor
path. -/
theorem GetFilesToWatch_ok (fs : FileSystem) (order : MapOrder) (config : Config)
    (l : List String) (h : GetFilesToWatch fs order config = .ok l) :
    ∃ envFiles, fs.glob (Join [config.DirSymfonyProject, ".env*"]) = .ok envFiles ∧
      ∀ p, p ∈ l ↔
        p ∈ envFiles ∨ p = Join [config.DirSymfonyProject, "public/index.php"] ∨
        (∃ dir ∈ symfonyDirs config,
          p ∈ (FindFiles fs config dir (excludedDirsOf config) false config.VendorList).1) ∨
        (config.VendorWatch = true ∧ ∃ vendor ∈ config.VendorList,
          p ∈ (FindFiles fs config (Join [config.DirSymfonyVendor, vendor])
            (excludedDirsOf config) true config.VendorList).1) := by
  simp only [GetFilesToWatch, GetFilesFromPath, GetSingleFileFromPath] at h
  cases hg : fs.glob (Join [config.DirSymfonyProject, ".env*"]) with
  | error e => simp [hg] at h
  | ok envFiles =>
    refine ⟨envFiles, rfl, ?_⟩
    simp only [hg] at h
    cases hs : fs.stat (Join [config.DirSymfonyProject, "public/index.php"]) with
    | error e =>
      by_cases hb : e.notExist = true
      · simp [hs, hb] at h
      · simp [hs, hb] at h
    | ok t =>
      simp only [hs] at h
      cases hw : watchDirs fs config (excludedDirsOf config) (order.range (symfonyDirs config))
          (envFiles ++ [Join [config.DirSymfonyProject, "public/index.php"]]) with
      | error e => simp [hw] at h
      | ok l1 =>
        simp only [hw] at h
        have h1 := watchDirs_ok fs config _ _ _ l1 hw
        have hperm : ∀ dir, dir ∈ order.range (symfonyDirs config) ↔ dir ∈ symfonyDirs config :=
          fun dir => (order.perm (symfonyDirs config)).mem_iff
        intro p
        by_cases hvw : config.VendorWatch = true
        · simp only [hvw, if_true] at h
          rw [watchVendors_ok fs config _ _ _ l h p, h1 p]
          simp only [List.mem_append, List.mem_singleton, hperm, or_assoc]
          simp [hvw]
        · simp only [hvw, if_false] at h
          injection h with h
          rw [← h, h1 p]
          simp only [List.mem_append, List.mem_singleton, hperm, or_assoc]
          simp [hvw]

theorem watchDirs_noerr (fs : FileSystem) (config : Config) (excludedDirs : List String)
    (dirs acc l : List String) (h : watchDirs fs config excludedDirs dirs acc = .ok l) :
    ∀ dir ∈ dirs, (FindFiles fs config dir excludedDirs false config.VendorList).2 = none := by
  induction dirs generalizing acc with
  | nil => intro dir hd; simp at hd
  | cons d rest ih =>
    simp only [watchDirs] at h
    split at h
    · cases h
    · rename_i files heq
      intro dir hd
      rcases List.mem_cons.1 hd with rfl | hd
      · rw [heq]
      · exact ih _ h dir hd

theorem watchVendors_noerr (fs : FileSystem) (config : Config) (excludedDirs : List String)
    (vendors acc l : List String) (h : watchVendors fs config excludedDirs vendors acc = .ok l) :
    ∀ vendor ∈ vendors, (FindFiles fs config (Join [config.DirSymfonyVendor, vendor])
      excludedDirs true config.VendorList).2 = none := by
  induction vendors generalizing acc with
  | nil => intro v hv; simp at hv
  | cons d rest ih =>
    simp only [watchVendors] at h
    split at h
    · cases h
    · rename_i files heq
      intro v hv
      rcases List.mem_cons.1 hv with rfl | hv
      · rw [heq]
      · exact ih _ h v hv

theorem mem_walkRoots (config : Config) (rw : String × Bool) :
    rw ∈ walkRoots config ↔
      (rw.2 = false ∧ rw.1 ∈ symfonyDirs config) ∨
      (rw.2 = true ∧ config.VendorWatch = true ∧
        ∃ vendor ∈ config.VendorList, rw.1 = Join [config.DirSymfonyVendor, vendor]) := by
  obtain ⟨r, b⟩ := rw
  unfold walkRoots
  by_cases hvw : config.VendorWatch = true
  · simp only [hvw, if_true, List.mem_append, List.mem_map, Prod.mk.injEq]
    constructor
    · rintro (⟨dir, hd, rfl, rfl⟩ | ⟨v, hv, rfl, rfl⟩)
      · exact Or.inl ⟨rfl, hd⟩
      · exact Or.inr ⟨rfl, trivial, v, hv, rfl⟩
    · rintro (⟨hb, hd⟩ | ⟨hb, _, v, hv, hr⟩)
      · exact Or.inl ⟨r, hd, rfl, hb.symm⟩
      · exact Or.inr ⟨v, hv, hr.symm, hb.symm⟩
  · simp only [hvw, if_false, List.append_nil, List.mem_map, Prod.mk.injEq, false_and,
      and_false, or_false, Bool.false_eq_true]
    constructor
    · rintro ⟨dir, hd, rfl, rfl⟩
      exact ⟨rfl, hd⟩
    · rintro ⟨hb, hd⟩
      exact ⟨r, hd, rfl, hb.symm⟩

/-- A successful `GetFilesToWatch` in terms of its walks: the result holds the matches of the
environment-file glob, the front-controller file and what `FindFiles` returned for each
walk, and every walk ended without error. -/
theorem GetFilesToWatch_walks (fs : FileSystem) (order : MapOrder) (config : Config)
    (l : List String) (h : GetFilesToWatch fs order config = .ok l) :
    ∃ envFiles, fs.glob (Join [config.DirSymfonyProject, ".env*"]) = .ok envFiles ∧
      (∀ p, p ∈ l ↔
        p ∈ envFiles ∨ p = Join [config.DirSymfonyProject, "public/index.php"] ∨
        ∃ rw ∈ walkRoots config,
          p ∈ (FindFiles fs config rw.1 (excludedDirsOf config) rw.2 config.VendorList).1) ∧
      ∀ rw ∈ walkRoots config,
        (FindFiles fs config rw.1 (excludedDirsOf config) rw.2 config.VendorList).2 = none := by
  obtain ⟨envFiles, hg, hmem⟩ := GetFilesToWatch_ok fs order config l h
  refine ⟨envFiles, hg, ?_, ?_⟩
  · intro p
    rw [hmem p]
    constructor
    · rintro (h1 | h1 | ⟨dir, hd, h1⟩ | ⟨hvw, v, hv, h1⟩)
      · exact Or.inl h1
      · exact Or.inr (Or.inl h1)
      · exact Or.inr (Or.inr ⟨(dir, false),
          (mem_walkRoots config _).2 (Or.inl ⟨rfl, hd⟩), h1⟩)
      · exact Or.inr (Or.inr ⟨(Join [config.DirSymfonyVendor, v], true),
          (mem_walkRoots config _).2 (Or.inr ⟨rfl, hvw, v, hv, rfl⟩), h1⟩)
    · rintro (h1 | h1 | ⟨⟨r, b⟩, hrw, h1⟩)
      · exact Or.inl h1
      · exact Or.inr (Or.inl h1)
      · rcases (mem_walkRoots config _).1 hrw with ⟨hb, hd⟩ | ⟨hb, hvw, v, hv, hr⟩
        · simp only at hb hd h1
          subst hb
          exact Or.inr (Or.inr (Or.inl ⟨r, hd, h1⟩))
        · simp only at hb hr h1
          subst hb
          subst hr
          exact Or.inr (Or.inr (Or.inr ⟨hvw, v, hv, h1⟩))
  · simp only [GetFilesToWatch, GetFilesFromPath, GetSingleFileFromPath, hg] at h
    cases hs : fs.stat (Join [config.DirSymfonyProject, "public/index.php"]) with
    | error e =>
      by_cases hb : e.notExist = true
      · simp [hs, hb] at h
      · simp [hs, hb] at h
    | ok t =>
      simp only [hs] at h
      cases hw : watchDirs fs config (excludedDirsOf config) (order.range (symfonyDirs config))
          (envFiles ++ [Join [config.DirSymfonyProject, "public/index.php"]]) with
      | error e => simp [hw] at h
      | ok l1 =>
        simp only [hw] at h
        have h1 := watchDirs_noerr fs config _ _ _ l1 hw
        rintro ⟨r, b⟩ hrw
        rcases (mem_walkRoots config _).1 hrw with ⟨hb, hd⟩ | ⟨hb, hvw, v, hv, hr⟩
        · simp only at hb hd ⊢
          subst hb
          exact h1 r ((order.perm (symfonyDirs config)).mem_iff.2 hd)
        · simp only at hb hr ⊢
          subst hb
          subst hr
          simp only [hvw, if_true] at h
          exact watchVendors_noerr fs config _ _ _ l h v hv

/-! ## Exclusion and vendor rules -/

theorem mem_excludedDirsOf (config : Config) (e : String) (h : e ∈ config.DirsExclude) :
    e ∈ excludedDirsOf config := by
  unfold excludedDirsOf
  split
  · exact List.mem_append_left _ h
  · exact h

theorem treeFs_valid (trees : List (String × Node))
    (h : trees.all (fun t => validNode t.2) = true) :
    ∀ root node, (treeFs trees).lstat root = .ok node → validNode node = true := by
  intro root node hl
  simp only [treeFs] at hl
  split at hl
  · rename_i t ht
    injection hl with hl
    rw [← hl]
    exact List.all_eq_true.1 h t (List.mem_of_find?_eq_some ht)
  · cases hl

/-- Counterexample to C4 as stated: with the default exclusion list (which holds `.git`),
the file `src/.gitkeep` is returned although its path contains `.git`. -/
theorem gitkeep_file_is_watched :
    GetFilesToWatch gitFs writtenOrder projConfig
      = .ok ["/proj/public/index.php", "src/.gitkeep", "src/a.php"] ∧
    ".git" ∈ projConfig.DirsExclude ∧ Contains "src/.gitkeep" ".git" = true :=
  ⟨rfl, by decide, by decide⟩

/-- C4, as the code behaves: every path a successful `GetFilesToWatch` returns is a match
of the environment-file glob, or the front-controller file, or a file `FindFiles` returned
for one of the walks of `GetFilesToWatch`, lying in the tree at the root of that walk with
no directory leading to it (the walk root included) whose path contains a string of
`DirsExclude`. The exclusion looks at directory paths only: every file in the tree of a walk
whose path does not end in `.gitignore` and whose leading directories all pass the
directory test of `FindFiles` is returned, whatever its own name contains. -/
theorem GetFilesToWatch_excludes_dirs (fs : FileSystem) (order : MapOrder) (config : Config)
    (l : List String) (h : GetFilesToWatch fs order config = .ok l) :
    (∀ p ∈ l,
      (∃ envFiles, fs.glob (Join [config.DirSymfonyProject, ".env*"]) = .ok envFiles ∧
        p ∈ envFiles) ∨
      p = Join [config.DirSymfonyProject, "public/index.php"] ∨
      ∃ rw ∈ walkRoots config,
        p ∈ (FindFiles fs config rw.1 (excludedDirsOf config) rw.2 config.VendorList).1 ∧
        ∃ node a, fs.lstat rw.1 = .ok node ∧ (p, a) ∈ filesAt rw.1 node ∧
          ∀ d ∈ a, ∀ e ∈ config.DirsExclude, Contains d e = false) ∧
    (∀ rw ∈ walkRoots config, ∀ node, fs.lstat rw.1 = .ok node →
      ∀ x ∈ filesAt rw.1 node,
        (∀ d ∈ x.2, descends config rw.1 (excludedDirsOf config) rw.2 config.VendorList d
          = true) →
        HasSuffix x.1 ".gitignore" = false → x.1 ∈ l) := by
  obtain ⟨envFiles, hg, hmem, hnoerr⟩ := GetFilesToWatch_walks fs order config l h
  constructor
  · intro p hp
    rcases (hmem p).1 hp with h1 | h1 | ⟨rw, hrw, h1⟩
    · exact Or.inl ⟨envFiles, hg, h1⟩
    · exact Or.inr (Or.inl h1)
    · obtain ⟨node, a, hl, ha, hd, _⟩ := FindFiles_sound fs config rw.1 _ _ _ p h1
      exact Or.inr (Or.inr ⟨rw, hrw, h1, node, a, hl, ha, fun d hmd e he =>
        descends_not_excluded _ _ _ _ _ d (hd d hmd) e (mem_excludedDirsOf config e he)⟩)
  · intro rw hrw node hl x hx hd hs
    refine (hmem x.1).2 (Or.inr (Or.inr ⟨rw, hrw, ?_⟩))
    rw [(FindFiles_spec fs config rw.1 _ _ _ node hl).2 (hnoerr rw hrw)]
    refine List.mem_map.2 ⟨x, List.mem_filter.2 ⟨hx, ?_⟩, rfl⟩
    simp only [wanted, Bool.and_eq_true, List.all_eq_true, Bool.not_eq_true']
    exact ⟨hd, hs⟩

/-- Witness of the amended C4: `src/a.php` is found by the walk of `src`, away from `.git`,
and `src/.gitkeep`, whose only leading directory is `src`, is returned too. -/
theorem GetFilesToWatch_excludes_dirs_witness :
    GetFilesToWatch gitFs writtenOrder projConfig
      = .ok ["/proj/public/index.php", "src/.gitkeep", "src/a.php"] ∧
    ((∃ envFiles, gitFs.glob (Join [projConfig.DirSymfonyProject, ".env*"]) = .ok envFiles ∧
        "src/a.php" ∈ envFiles) ∨
      "src/a.php" = Join [projConfig.DirSymfonyProject, "public/index.php"] ∨
      ∃ rw ∈ walkRoots projConfig,
        "src/a.php" ∈ (FindFiles gitFs projConfig rw.1 (excludedDirsOf projConfig) rw.2
          projConfig.VendorList).1 ∧
        ∃ node a, gitFs.lstat rw.1 = .ok node ∧ ("src/a.php", a) ∈ filesAt rw.1 node ∧
          ∀ d ∈ a, ∀ e ∈ projConfig.DirsExclude, Contains d e = false) ∧
    "src/.gitkeep" ∈ ["/proj/public/index.php", "src/.gitkeep", "src/a.php"] :=
  ⟨rfl,
    (GetFilesToWatch_excludes_dirs gitFs writtenOrder projConfig _ rfl).1 "src/a.php"
      (by decide),
    (GetFilesToWatch_excludes_dirs gitFs writtenOrder projConfig _ rfl).2 ("src", false)
      (by decide) gitTree rfl ("src/.gitkeep", ["src"]) (by decide) (by decide) (by decide)⟩

/-- C5: every file `FindFiles` returns lies in the tree at the walk root, and none of the
directories that lead to it (the walk root included) has a path containing a string of
`excludedDirs`; in particular none of them is a directory entry whose name contains such a
string, as `.git` does for the fragment `.git`. -/
theorem FindFiles_never_below_excluded (fs : FileSystem) (config : Config) (root : String)
    (excludedDirs : List String) (vendorWatch : Bool) (vendorList : List String) :
    ∀ p ∈ (FindFiles fs config root excludedDirs vendorWatch vendorList).1,
      ∃ node a, fs.lstat root = .ok node ∧ (p, a) ∈ filesAt root node ∧
        (∀ d ∈ a, ∀ e ∈ excludedDirs, Contains d e = false) ∧
        (∀ d ∈ a, ∀ e ∈ excludedDirs, ∀ q name, ValidName name → Contains name e = true →
          d ≠ Join [q, name]) := by
  intro p hp
  obtain ⟨node, a, hl, ha, hd, _⟩ := FindFiles_sound fs config root _ _ _ p hp
  have hex : ∀ d ∈ a, ∀ e ∈ excludedDirs, Contains d e = false := fun d hmd e he =>
    descends_not_excluded _ _ _ _ _ d (hd d hmd) e he
  refine ⟨node, a, hl, ha, hex, ?_⟩
  intro d hmd e he q name hv hc hdq
  have h1 := hex d hmd e he
  rw [hdq, Join_contains_name q name e hv hc] at h1
  cases h1

/-- Witness of C5: below `src` with the fragment `.git`, `src/a.php` is returned and
`src/.git/HEAD` is not. -/
theorem FindFiles_never_below_excluded_witness :
    "src/a.php" ∈ (FindFiles gitFs projConfig "src" [".git"] false []).1 ∧
    "src/.git/HEAD" ∉ (FindFiles gitFs projConfig "src" [".git"] false []).1 ∧
    ∃ node a, gitFs.lstat "src" = .ok node ∧ ("src/a.php", a) ∈ filesAt "src" node ∧
      (∀ d ∈ a, ∀ e ∈ [".git"], Contains d e = false) ∧
      (∀ d ∈ a, ∀ e ∈ [".git"], ∀ q name, ValidName name → Contains name e = true →
        d ≠ Join [q, name]) :=
  ⟨by decide, by decide,
    FindFiles_never_below_excluded gitFs projConfig "src" [".git"] false [] "src/a.php"
      (by decide)⟩

/-- C6: with vendor watching off, every path `GetFilesToWatch` returns is a match of the
environment-file glob, or the front-controller file, or a file found by walking one of the
watched directories in which no directory leading to it, at any depth, has a path that
contains the vendor directory name; in particular none of them is a directory entry named
`DirSymfonyVendor`. -/
theorem GetFilesToWatch_skips_vendor_dirs (fs : FileSystem) (order : MapOrder)
    (config : Config) (l : List String) (hvw : config.VendorWatch = false)
    (h : GetFilesToWatch fs order config = .ok l) :
    ∀ p ∈ l,
      (∃ envFiles, fs.glob (Join [config.DirSymfonyProject, ".env*"]) = .ok envFiles ∧
        p ∈ envFiles) ∨
      p = Join [config.DirSymfonyProject, "public/index.php"] ∨
      ∃ dir ∈ symfonyDirs config, ∃ node a, fs.lstat dir = .ok node ∧
        (p, a) ∈ filesAt dir node ∧
        (∀ d ∈ a, Contains d config.DirSymfonyVendor = false) ∧
        (∀ d ∈ a, ∀ q, ValidName config.DirSymfonyVendor →
          d ≠ Join [q, config.DirSymfonyVendor]) := by
  obtain ⟨envFiles, hg, hmem⟩ := GetFilesToWatch_ok fs order config l h
  have hin : config.DirSymfonyVendor ∈ excludedDirsOf config := by
    simp [excludedDirsOf, hvw]
  intro p hp
  rcases (hmem p).1 hp with h1 | h1 | ⟨dir, hdir, h1⟩ | ⟨hc, _⟩
  · exact Or.inl ⟨envFiles, hg, h1⟩
  · exact Or.inr (Or.inl h1)
  · obtain ⟨node, a, hl, ha, hd, _⟩ := FindFiles_sound fs config dir _ _ _ p h1
    have hex : ∀ d ∈ a, Contains d config.DirSymfonyVendor = false := fun d hmd =>
      descends_not_excluded _ _ _ _ _ d (hd d hmd) _ hin
    refine Or.inr (Or.inr ⟨dir, hdir, node, a, hl, ha, hex, ?_⟩)
    intro d hmd q hv hdq
    have h2 := hex d hmd
    have hself : Contains config.DirSymfonyVendor config.DirSymfonyVendor = true :=
      (Contains_iff _ _).2 (List.infix_refl _)
    rw [hdq, Join_contains_name q _ _ hv hself] at h2
    cases h2
  · rw [hvw] at hc
    cases hc

/-- Witness of C6: with `src/vendor/v.php` and `src/lib/vendor/w.php` present, only
`src/a.php` is returned from `src`. -/
theorem GetFilesToWatch_skips_vendor_dirs_witness :
    GetFilesToWatch nestedVendorFs writtenOrder projConfig
      = .ok ["/proj/public/index.php", "src/a.php"] ∧
    ((∃ envFiles, nestedVendorFs.glob (Join [projConfig.DirSymfonyProject, ".env*"])
        = .ok envFiles ∧ "src/a.php" ∈ envFiles) ∨
      "src/a.php" = Join [projConfig.DirSymfonyProject, "public/index.php"] ∨
      ∃ dir ∈ symfonyDirs projConfig, ∃ node a, nestedVendorFs.lstat dir = .ok node ∧
        ("src/a.php", a) ∈ filesAt dir node ∧
        (∀ d ∈ a, Contains d projConfig.DirSymfonyVendor = false) ∧
        (∀ d ∈ a, ∀ q, ValidName projConfig.DirSymfonyVendor →
          d ≠ Join [q, projConfig.DirSymfonyVendor])) :=
  ⟨rfl, GetFilesToWatch_skips_vendor_dirs nestedVendorFs writtenOrder projConfig _ rfl rfl
    "src/a.php" (by decide)⟩

theorem descends_off_not_vendor (config : Config) (root : String) (excludedDirs : List String)
    (vendorList : List String) (d : String)
    (h : descends config root excludedDirs false vendorList d = true) :
    HasPrefix d (Join [root, config.DirSymfonyVendor]) = false := by
  simp only [descends, Bool.false_and, Bool.or_false, Bool.and_eq_true, Bool.not_eq_true'] at h
  exact h.2

/-- Counterexample to C7 as stated: with vendor watching on and the vendor list `symfony`,
`GetFilesToWatch` returns `src/lib/vendor/w.php`, a file below the directory named `vendor`
inside `src/lib`, and - when the source directory is configured to be the vendor directory
itself - `vendor/other/b.php`; neither path starts with `vendor/symfony`. -/
theorem vendor_path_without_listed_prefix :
    (vendorConfig ["symfony"]).VendorWatch = true ∧
    (vendorConfig ["symfony"]).VendorList = ["symfony"] ∧
    GetFilesToWatch nestedVendorListFs writtenOrder (vendorConfig ["symfony"])
      = .ok ["/proj/public/index.php", "src/a.php", "src/lib/vendor/w.php",
          "vendor/symfony/c.php"] ∧
    nestedVendorListFs.lstat "src" = .ok nestedVendorTree ∧
    ("src/lib/vendor/w.php", ["src/lib/vendor", "src/lib", "src"])
      ∈ filesAt "src" nestedVendorTree ∧
    "src/lib/vendor" = Join ["src/lib", (vendorConfig ["symfony"]).DirSymfonyVendor] ∧
    (∀ name ∈ (vendorConfig ["symfony"]).VendorList, HasPrefix "src/lib/vendor/w.php"
      (Join [(vendorConfig ["symfony"]).DirSymfonyVendor, name]) = false) ∧
    (vendorSrcConfig ["symfony"]).VendorWatch = true ∧
    (vendorSrcConfig ["symfony"]).VendorList = ["symfony"] ∧
    GetFilesToWatch vendorFs writtenOrder (vendorSrcConfig ["symfony"])
      = .ok ["/proj/public/index.php", "vendor/other/b.php", "vendor/symfony/c.php",
          "vendor/symfony/c.php"] ∧
    HasPrefix "vendor/other/b.php" ((vendorSrcConfig ["symfony"]).DirSymfonyVendor ++ "/")
      = true ∧
    (∀ name ∈ (vendorSrcConfig ["symfony"]).VendorList, HasPrefix "vendor/other/b.php"
      (Join [(vendorSrcConfig ["symfony"]).DirSymfonyVendor, name]) = false) :=
  ⟨rfl, rfl, rfl, rfl, by decide, by decide, by decide, rfl, rfl, rfl, by decide, by decide⟩

/-- C7, as the code behaves: with vendor watching on, a successful `GetFilesToWatch`
returns exactly the matches of the environment-file glob, the front-controller file, the
files `FindFiles` returns for the watched directories with the vendor flag off, and the
files `FindFiles` returns for the walks rooted at `DirSymfonyVendor` joined with a name of
the vendor list. Every path of such a vendor walk starts with the root of its walk, unless
that root cleans to `.`; every path of a watched-directory walk is reached without entering
a directory whose path starts with the vendor path of that directory. Directory entries
are taken to have well-formed names. -/
theorem vendor_paths_have_listed_prefix (fs : FileSystem) (order : MapOrder) (config : Config)
    (l : List String) (hvw : config.VendorWatch = true)
    (hfs : ∀ root node, fs.lstat root = .ok node → validNode node = true)
    (h : GetFilesToWatch fs order config = .ok l) :
    (∃ envFiles, fs.glob (Join [config.DirSymfonyProject, ".env*"]) = .ok envFiles ∧
      ∀ p, p ∈ l ↔
        p ∈ envFiles ∨ p = Join [config.DirSymfonyProject, "public/index.php"] ∨
        (∃ dir ∈ symfonyDirs config,
          p ∈ (FindFiles fs config dir config.DirsExclude false config.VendorList).1) ∨
        ∃ name ∈ config.VendorList,
          p ∈ (FindFiles fs config (Join [config.DirSymfonyVendor, name])
            config.DirsExclude true config.VendorList).1) ∧
    (∀ name ∈ config.VendorList,
      ∀ p ∈ (FindFiles fs config (Join [config.DirSymfonyVendor, name])
          config.DirsExclude true config.VendorList).1,
        HasPrefix p (Join [config.DirSymfonyVendor, name]) = true ∨
          Join [config.DirSymfonyVendor, name] = ".") ∧
    (∀ dir ∈ symfonyDirs config,
      ∀ p ∈ (FindFiles fs config dir config.DirsExclude false config.VendorList).1,
        ∃ node a, fs.lstat dir = .ok node ∧ (p, a) ∈ filesAt dir node ∧
          ∀ d ∈ a, HasPrefix d (Join [dir, config.DirSymfonyVendor]) = false) := by
  obtain ⟨envFiles, hg, hmem⟩ := GetFilesToWatch_ok fs order config l h
  have hex : excludedDirsOf config = config.DirsExclude := by
    simp [excludedDirsOf, hvw]
  refine ⟨⟨envFiles, hg, fun p => ?_⟩, ?_, ?_⟩
  · rw [hmem p, hex]
    simp [hvw]
  · intro name _ p hp
    obtain ⟨node, a, hl, ha, _, _⟩ := FindFiles_sound fs config _ _ _ _ p hp
    by_cases hdot : Join [config.DirSymfonyVendor, name] = "."
    · exact Or.inr hdot
    · exact Or.inl (filesAt_extends _ node (hfs _ node hl) (Join_empty_or_clean _) hdot
        (p, a) ha)
  · intro dir _ p hp
    obtain ⟨node, a, hl, ha, hd, _⟩ := FindFiles_sound fs config dir _ _ _ p hp
    exact ⟨node, a, hl, ha, fun d hmd => descends_off_not_vendor _ _ _ _ d (hd d hmd)⟩

/-- Witness of the amended C7: with the vendor list `symfony`, the file
`vendor/symfony/c.php` of the vendor walk starts with `vendor/symfony`. -/
theorem vendor_paths_have_listed_prefix_witness :
    GetFilesToWatch vendorFs writtenOrder (vendorConfig ["symfony"])
      = .ok ["/proj/public/index.php", "src/a.php", "vendor/symfony/c.php"] ∧
    (HasPrefix "vendor/symfony/c.php"
        (Join [(vendorConfig ["symfony"]).DirSymfonyVendor, "symfony"]) = true ∨
      Join [(vendorConfig ["symfony"]).DirSymfonyVendor, "symfony"] = ".") :=
  ⟨rfl, ( vendor_paths_have_listed_prefix vendorFs writtenOrder (vendorConfig ["symfony"]) _ rfl
    (treeFs_valid _ (by decide)) rfl).2.1 "symfony" (by decide) "vendor/symfony/c.php"
    (by decide)⟩

/-- Counterexample to C8 as stated: with vendor watching on and an empty vendor list, the
file `c.php` of the vendor package `symfony` - in no excluded directory, not ending in
`.gitignore` - is not returned, neither under its relative nor under its absolute path; the
result has the front-controller file and `src/a.php` only. -/
theorem empty_vendor_list_watches_no_vendor :
    (vendorConfig []).VendorWatch = true ∧ (vendorConfig []).VendorList = [] ∧
    GetFilesToWatch vendorFs writtenOrder (vendorConfig [])
      = .ok ["/proj/public/index.php", "src/a.php"] ∧
    vendorFs.lstat "vendor" = .ok (.dir vendorEntries) ∧
    ("vendor/symfony/c.php", ["vendor/symfony", "vendor"])
      ∈ filesAt "vendor" (.dir vendorEntries) ∧
    vendorFs.lstat (Join [(vendorConfig []).DirSymfonyProject, "vendor"])
      = .ok (.dir vendorEntries) ∧
    ("/proj/vendor/symfony/c.php", ["/proj/vendor/symfony", "/proj/vendor"])
      ∈ filesAt "/proj/vendor" (.dir vendorEntries) ∧
    (∀ d ∈ ["vendor/symfony", "vendor", "/proj/vendor/symfony", "/proj/vendor"],
      ∀ e ∈ (vendorConfig []).DirsExclude, Contains d e = false) ∧
    HasSuffix "vendor/symfony/c.php" ".gitignore" = false :=
  ⟨rfl, rfl, rfl, rfl, by decide, rfl, by decide, by decide, by decide⟩

/-- C8, as the code behaves: with vendor watching on and an empty vendor list, a successful
`GetFilesToWatch` returns exactly the matches of the environment-file glob, the
front-controller file and the files `FindFiles` returns for the watched directories with
the vendor flag off, and each of these files is reached without entering a directory whose
path starts with the vendor path of its walk root. -/
theorem empty_vendor_list_result (fs : FileSystem) (order : MapOrder) (config : Config)
    (l : List String) (hvw : config.VendorWatch = true) (hnil : config.VendorList = [])
    (h : GetFilesToWatch fs order config = .ok l) :
    (∃ envFiles, fs.glob (Join [config.DirSymfonyProject, ".env*"]) = .ok envFiles ∧
      ∀ p, p ∈ l ↔
        p ∈ envFiles ∨ p = Join [config.DirSymfonyProject, "public/index.php"] ∨
        ∃ dir ∈ symfonyDirs config,
          p ∈ (FindFiles fs config dir config.DirsExclude false []).1) ∧
    ∀ dir ∈ symfonyDirs config,
      ∀ p ∈ (FindFiles fs config dir config.DirsExclude false []).1,
        ∃ node a, fs.lstat dir = .ok node ∧ (p, a) ∈ filesAt dir node ∧
          ∀ d ∈ a, HasPrefix d (Join [dir, config.DirSymfonyVendor]) = false := by
  obtain ⟨envFiles, hg, hmem⟩ := GetFilesToWatch_ok fs order config l h
  have hex : excludedDirsOf config = config.DirsExclude := by
    simp [excludedDirsOf, hvw]
  constructor
  · refine ⟨envFiles, hg, fun p => ?_⟩
    rw [hmem p, hnil, hex]
    simp
  · intro dir _ p hp
    obtain ⟨node, a, hl, ha, hd, _⟩ := FindFiles_sound fs config dir _ _ _ p hp
    exact ⟨node, a, hl, ha, fun d hmd => descends_off_not_vendor _ _ _ _ d (hd d hmd)⟩

/-- Witness of the amended C8 on the project of the counterexample. -/
theorem empty_vendor_list_result_witness :
    GetFilesToWatch vendorFs writtenOrder (vendorConfig [])
      = .ok ["/proj/public/index.php", "src/a.php"] ∧
    ∃ envFiles, vendorFs.glob (Join [(vendorConfig []).DirSymfonyProject, ".env*"])
        = .ok envFiles ∧
      ∀ p, p ∈ ["/proj/public/index.php", "src/a.php"] ↔
        p ∈ envFiles ∨ p = Join [(vendorConfig []).DirSymfonyProject, "public/index.php"] ∨
        ∃ dir ∈ symfonyDirs (vendorConfig []),
          p ∈ (FindFiles vendorFs (vendorConfig []) dir (vendorConfig []).DirsExclude
            false []).1 :=
  ⟨rfl, (empty_vendor_list_result vendorFs writtenOrder (vendorConfig [])
    ["/proj/public/index.php", "src/a.php"] rfl rfl rfl).1⟩

/-- C9, the code at the failing input: walking `/proj` with vendor watching on and the
vendor list `symfony`, `FindFiles` skips the directory `/proj/vendor` itself (its path does
not start with `/proj/vendor/symfony`), so the file `/proj/vendor/symfony/c.php`, which
lies below the listed package, is not returned. -/
theorem FindFiles_skips_listed_vendor :
    FindFiles projRootFs projConfig "/proj" [] true ["symfony"]
      = (["/proj/src/a.php"], none) ∧
    (∃ node, projRootFs.lstat "/proj" = .ok node ∧
      ("/proj/vendor/symfony/c.php", ["/proj/vendor/symfony", "/proj/vendor", "/proj"])
        ∈ filesAt "/proj" node) ∧
    HasPrefix "/proj/vendor/symfony" (Join ["/proj", projConfig.DirSymfonyVendor, "symfony"])
      = true ∧
    descends projConfig "/proj" [] true ["symfony"] "/proj/vendor" = false ∧
    "/proj/vendor/symfony/c.php"
      ∉ (FindFiles projRootFs projConfig "/proj" [] true ["symfony"]).1 :=
  ⟨rfl, ⟨_, rfl, by decide⟩, by decide, by decide, by decide⟩

/-- C10, the code at the failing input: for the project `/proj` and a process started in
another directory, `GetFilesToWatch` walks `src` of the working directory, not
`/proj/src`: it returns the relative path `src/other.php`, which does not lie below
`/proj`, and misses `/proj/src/a.php`. -/
theorem walked_paths_are_relative :
    GetFilesToWatch elsewhereFs writtenOrder projConfig
      = .ok ["/proj/public/index.php", "src/other.php"] ∧
    projConfig.DirSymfonyProject = "/proj" ∧
    HasPrefix "src/other.php" projConfig.DirSymfonyProject = false ∧
    HasPrefix "src/other.php" "/" = false ∧
    (∃ node, elsewhereFs.lstat (Join [projConfig.DirSymfonyProject, "src"]) = .ok node ∧
      ("/proj/src/a.php", ["/proj/src"]) ∈ filesAt "/proj/src" node) :=
  ⟨rfl, rfl, by decide, by decide, ⟨_, rfl, by decide⟩⟩

/-! ## Errors of the enumeration and of the fingerprint map -/

/-- C11: when the environment-file glob succeeds and `os.Stat` reports that
`DirSymfonyProject/public/index.php` does not exist, `GetFilesToWatch` returns no list but
the error `file not found: ` followed by that full path, and `GetWatchMap` returns the same
error, which leaves the caller with the nil map. -/
theorem missing_index_file_is_an_error (fs : FileSystem) (order : MapOrder) (config : Config)
    (envFiles : List String) (e : StatError)
    (hglob : fs.glob (Join [config.DirSymfonyProject, ".env*"]) = .ok envFiles)
    (hstat : fs.stat (Join [config.DirSymfonyProject, "public/index.php"]) = .error e)
    (hne : e.notExist = true) :
    GetFilesToWatch fs order config
      = .error ("file not found: " ++ Join [config.DirSymfonyProject, "public/index.php"]) ∧
    GetWatchMap fs order config
      = .error ("file not found: " ++ Join [config.DirSymfonyProject, "public/index.php"]) ∧
    updatedFilesOf (GetWatchMap fs order config) = none := by
  have h1 : GetFilesToWatch fs order config
      = .error ("file not found: " ++ Join [config.DirSymfonyProject, "public/index.php"]) := by
    simp [GetFilesToWatch, GetFilesFromPath, GetSingleFileFromPath, hglob, hstat, hne]
  have h2 : GetWatchMap fs order config
      = .error ("file not found: " ++ Join [config.DirSymfonyProject, "public/index.php"]) := by
    simp [GetWatchMap, h1]
  exact ⟨h1, h2, by rw [h2]; rfl⟩

/-- Witness of C11: the directory `/empty` has no `public/index.php`. -/
theorem missing_index_file_is_an_error_witness :
    GetFilesToWatch (treeFs []) writtenOrder emptyConfig
      = .error "file not found: /empty/public/index.php" ∧
    GetWatchMap (treeFs []) writtenOrder emptyConfig
      = .error "file not found: /empty/public/index.php" ∧
    updatedFilesOf (GetWatchMap (treeFs []) writtenOrder emptyConfig) = none :=
  missing_index_file_is_an_error (treeFs []) writtenOrder emptyConfig []
    (noSuchFile "/empty/public/index.php") rfl rfl rfl

theorem mapIndex_mapSet (m : GoMap) (k v k2 : String) :
    mapIndex (mapSet m k v) k2 = if k = k2 then some v else mapIndex m k2 := by
  induction m with
  | nil => simp [mapSet, mapIndex]
  | cons kv m ih =>
    obtain ⟨k1, v1⟩ := kv
    by_cases h1 : k1 = k
    · subst h1
      by_cases h2 : k1 = k2
      · simp [mapSet, mapIndex, h2]
      · simp [mapSet, mapIndex, h2]
    · by_cases h2 : k1 = k2
      · subst h2
        have h3 : ¬ k = k1 := fun e => h1 e.symm
        simp [mapSet, mapIndex, h1, h3]
      · simp [mapSet, mapIndex, h1, h2, ih]

theorem mem_mapKeys_mapSet (m : GoMap) (k v k2 : String) :
    k2 ∈ mapKeys (mapSet m k v) ↔ k2 = k ∨ k2 ∈ mapKeys m := by
  rw [mapKeys_mapSet]
  split
  · rename_i h
    constructor
    · exact Or.inr
    · rintro (rfl | h2)
      · exact h
      · exact h2
  · simp only [List.mem_append, List.mem_singleton]
    tauto

/-- The message of the error `GetWatchMap` builds for a failing stat names the file. -/
theorem stat_message_names_file (file tail : String) :
    Contains ("can't get stats for the \"" ++ file ++
      "\" file, check the project permissions or if a new file was created: " ++ tail) file
      = true := by
  rw [Contains_iff]
  simp only [String.data_append]
  exact (List.infix_append _ _ _).trans (List.prefix_append _ _).isInfix

theorem statAll_first_failure (fs : FileSystem) (pre post : List String) (file : String)
    (e : StatError) (m : GoMap) (hpre : ∀ g ∈ pre, ∃ t, fs.stat g = .ok t)
    (hfile : fs.stat file = .error e) :
    statAll fs (pre ++ file :: post) m = .error ("can't get stats for the \"" ++ file ++
      "\" file, check the project permissions or if a new file was created: " ++ e.msg) := by
  induction pre generalizing m with
  | nil => simp [statAll, hfile]
  | cons g rest ih =>
    obtain ⟨t, ht⟩ := hpre g (List.mem_cons_self _ _)
    simp only [List.cons_append, statAll, ht]
    exact ih _ (fun x hx => hpre x (List.mem_cons_of_mem _ hx))

theorem statAll_all_ok (fs : FileSystem) (files : List String) (m : GoMap)
    (hall : ∀ g ∈ files, ∃ t, fs.stat g = .ok t) :
    ∃ r, statAll fs files m = .ok r ∧
      (∀ k, k ∈ mapKeys r ↔ k ∈ mapKeys m ∨ k ∈ files) ∧
      ∀ k ∈ files, ∀ t, fs.stat k = .ok t → mapIndex r k = some t := by
  induction files generalizing m with
  | nil => exact ⟨m, rfl, by simp, by simp⟩
  | cons g rest ih =>
    obtain ⟨t, ht⟩ := hall g (List.mem_cons_self _ _)
    obtain ⟨r, hr, hk, hv⟩ := ih (mapSet m g t) (fun x hx => hall x (List.mem_cons_of_mem _ hx))
    refine ⟨r, by simp only [statAll, ht]; exact hr, ?_, ?_⟩
    · intro k
      rw [hk k, mem_mapKeys_mapSet, List.mem_cons]
      tauto
    · intro k hkm t2 ht2
      by_cases hin : k ∈ rest
      · exact hv k hin t2 ht2
      · rcases List.mem_cons.1 hkm with rfl | h
        · have hnone : ∀ (l : List String) (m2 : GoMap) (r2 : GoMap), k ∉ l →
              statAll fs l m2 = .ok r2 → mapIndex r2 k = mapIndex m2 k := by
            intro l
            induction l with
            | nil =>
              intro m2 r2 _ h2
              simp only [statAll] at h2
              injection h2 with h2
              rw [h2]
            | cons x xs ihx =>
              intro m2 r2 hnot h2
              simp only [List.mem_cons, not_or] at hnot
              simp only [statAll] at h2
              split at h2
              · cases h2
              · rw [ihx _ _ hnot.2 h2, mapIndex_mapSet, if_neg (fun e => hnot.1 e.symm)]
          rw [hnone rest _ r hin hr, mapIndex_mapSet, if_pos rfl]
          rw [ht] at ht2
          injection ht2 with ht2
          rw [ht2]
        · exact absurd h hin

theorem exists_first_failure (fs : FileSystem) (files : List String)
    (h : ∃ g ∈ files, ∃ e, fs.stat g = .error e) :
    ∃ pre file post e, files = pre ++ file :: post ∧
      (∀ g ∈ pre, ∃ t, fs.stat g = .ok t) ∧ fs.stat file = .error e := by
  induction files with
  | nil =>
    obtain ⟨g, hg, _⟩ := h
    simp at hg
  | cons x xs ih =>
    cases hx : fs.stat x with
    | error e => exact ⟨[], x, xs, e, rfl, by simp, hx⟩
    | ok t =>
      obtain ⟨g, hg, e, he⟩ := h
      rcases List.mem_cons.1 hg with rfl | hg
      · rw [hx] at he
        cases he
      · obtain ⟨pre, file, post, e2, h1, h2, h3⟩ := ih ⟨g, hg, e, he⟩
        refine ⟨x :: pre, file, post, e2, by rw [h1]; rfl, ?_, h3⟩
        intro y hy
        rcases List.mem_cons.1 hy with rfl | hy
        · exact ⟨t, hx⟩
        · exact h2 y hy

/-- C12: for the list of paths `GetFilesToWatch` returned, if the stat of some path fails
then there is a first such path, and `GetWatchMap` returns an error whose message contains
that path and no map (the caller is left with the nil map); if every stat succeeds,
`GetWatchMap` returns a map whose keys are exactly the listed paths, each with the
modification time of its stat. -/
theorem GetWatchMap_all_or_nothing (fs : FileSystem) (order : MapOrder) (config : Config)
    (files : List String) (h : GetFilesToWatch fs order config = .ok files) :
    ((∃ g ∈ files, ∃ e, fs.stat g = .error e) →
      ∃ pre file post msg, files = pre ++ file :: post ∧
        (∀ g ∈ pre, ∃ t, fs.stat g = .ok t) ∧ (∃ e, fs.stat file = .error e) ∧
        GetWatchMap fs order config = .error msg ∧ Contains msg file = true ∧
        updatedFilesOf (GetWatchMap fs order config) = none) ∧
    ((∀ g ∈ files, ∃ t, fs.stat g = .ok t) →
      ∃ m, GetWatchMap fs order config = .ok m ∧
        (∀ k, k ∈ mapKeys m ↔ k ∈ files) ∧
        ∀ k ∈ files, ∀ t, fs.stat k = .ok t → mapIndex m k = some t) := by
  have hw : GetWatchMap fs order config = statAll fs files [] := by
    simp [GetWatchMap, h]
  constructor
  · intro hfail
    obtain ⟨pre, file, post, e, h1, h2, h3⟩ := exists_first_failure fs files hfail
    have h4 := statAll_first_failure fs pre post file e [] h2 h3
    rw [← h1, ← hw] at h4
    exact ⟨pre, file, post, _, h1, h2, ⟨e, h3⟩, h4, stat_message_names_file file e.msg,
      by rw [h4]; rfl⟩
  · intro hall
    obtain ⟨r, hr, hk, hv⟩ := statAll_all_ok fs files [] hall
    refine ⟨r, by rw [hw]; exact hr, ?_, hv⟩
    intro k
    rw [hk k]
    simp [mapKeys]

/-- Witness of C12: the environment file vanished before its stat; the error names it. -/
theorem GetWatchMap_all_or_nothing_witness :
    GetFilesToWatch (envFs (.error (noSuchFile "/proj/.env"))) writtenOrder projConfig
      = .ok ["/proj/.env", "/proj/public/index.php"] ∧
    (∃ g ∈ ["/proj/.env", "/proj/public/index.php"],
      ∃ e, (envFs (.error (noSuchFile "/proj/.env"))).stat g = .error e) ∧
    ∃ pre file post msg, ["/proj/.env", "/proj/public/index.php"] = pre ++ file :: post ∧
      (∀ g ∈ pre, ∃ t, (envFs (.error (noSuchFile "/proj/.env"))).stat g = .ok t) ∧
      (∃ e, (envFs (.error (noSuchFile "/proj/.env"))).stat file = .error e) ∧
      GetWatchMap (envFs (.error (noSuchFile "/proj/.env"))) writtenOrder projConfig
        = .error msg ∧
      Contains msg file = true ∧
      updatedFilesOf
        (GetWatchMap (envFs (.error (noSuchFile "/proj/.env"))) writtenOrder projConfig)
        = none :=
  ⟨rfl, ⟨"/proj/.env", by decide, _, rfl⟩,
    (GetWatchMap_all_or_nothing (envFs (.error (noSuchFile "/proj/.env"))) writtenOrder
      projConfig _ rfl).1 ⟨"/proj/.env", by decide, _, rfl⟩⟩

/-! ## The `.gitignore` rule -/

/-- C13: for the tree at a walk root, no path `FindFiles` returns ends in `.gitignore`; the
returned list is an initial part of the list of all files that lie in directories the walk
enters and whose path does not end in `.gitignore`, in walk order with one element per
file, and it is that whole list when the walk ends without error. So after a walk without
error a file in an entered directory is in the result exactly when its path does not end in
`.gitignore`, and when different files of the tree have different paths every returned path
occurs once. -/
theorem FindFiles_gitignore_rule (fs : FileSystem) (config : Config) (root : String)
    (excludedDirs : List String) (vendorWatch : Bool) (vendorList : List String) (node : Node)
    (h : fs.lstat root = .ok node) :
    (∀ p ∈ (FindFiles fs config root excludedDirs vendorWatch vendorList).1,
      HasSuffix p ".gitignore" = false) ∧
    (FindFiles fs config root excludedDirs vendorWatch vendorList).1 <+:
      ((filesAt root node).filter
        (wanted config root excludedDirs vendorWatch vendorList)).map Prod.fst ∧
    ((FindFiles fs config root excludedDirs vendorWatch vendorList).2 = none →
      (FindFiles fs config root excludedDirs vendorWatch vendorList).1 =
        ((filesAt root node).filter
          (wanted config root excludedDirs vendorWatch vendorList)).map Prod.fst) ∧
    ((FindFiles fs config root excludedDirs vendorWatch vendorList).2 = none →
      ∀ x ∈ filesAt root node,
        (∀ d ∈ x.2, descends config root excludedDirs vendorWatch vendorList d = true) →
        (x.1 ∈ (FindFiles fs config root excludedDirs vendorWatch vendorList).1 ↔
          HasSuffix x.1 ".gitignore" = false)) ∧
    (((filesAt root node).map Prod.fst).Nodup →
      ∀ p ∈ (FindFiles fs config root excludedDirs vendorWatch vendorList).1,
        (FindFiles fs config root excludedDirs vendorWatch vendorList).1.count p = 1) := by
  obtain ⟨hpre, heq⟩ := FindFiles_spec fs config root excludedDirs vendorWatch vendorList node h
  have hsuf : ∀ p ∈ (FindFiles fs config root excludedDirs vendorWatch vendorList).1,
      HasSuffix p ".gitignore" = false := by
    intro p hp
    obtain ⟨_, _, _, _, _, hs⟩ := FindFiles_sound fs config root _ _ _ p hp
    exact hs
  refine ⟨hsuf, hpre, heq, ?_, ?_⟩
  · intro hnone x hx hd
    constructor
    · exact hsuf x.1
    · intro hs
      rw [heq hnone]
      refine List.mem_map.2 ⟨x, List.mem_filter.2 ⟨hx, ?_⟩, rfl⟩
      simp only [wanted, Bool.and_eq_true, List.all_eq_true, Bool.not_eq_true']
      exact ⟨hd, hs⟩
  · intro hnd p hp
    have hsub : List.Sublist (((filesAt root node).filter
        (wanted config root excludedDirs vendorWatch vendorList)).map Prod.fst)
          ((filesAt root node).map Prod.fst) :=
      (List.filter_sublist _).map _
    have hnd2 : (FindFiles fs config root excludedDirs vendorWatch vendorList).1.Nodup :=
      (hnd.sublist hsub).sublist hpre.sublist
    exact List.count_eq_one_of_mem hnd2 hp

/-- Witness of C13: below `src`, the files `.gitignore` and `sub/x.gitignore` are left out
and the two other files are returned, once each. -/
theorem FindFiles_gitignore_rule_witness :
    FindFiles ignoreFs projConfig "src" [] false [] = (["src/a.php", "src/sub/b.php"], none) ∧
    ((filesAt "src" ignoreTree).map Prod.fst).Nodup ∧
    ∀ p ∈ (FindFiles ignoreFs projConfig "src" [] false []).1,
      (FindFiles ignoreFs projConfig "src" [] false []).1.count p = 1 :=
  ⟨rfl, by decide,
    (FindFiles_gitignore_rule ignoreFs projConfig "src" [] false [] ignoreTree rfl).2.2.2.2
      (by decide)⟩

/-! ## `ParseCommaSeparated` -/

theorem splitOn_ne_nil (sep : Char) (l : List Char) : splitOn sep l ≠ [] := by
  cases l with
  | nil => simp [splitOn]
  | cons c cs =>
    simp only [splitOn]
    split
    · simp
    · split <;> simp

theorem splitOn_length (sep : Char) (l : List Char) :
    (splitOn sep l).length = l.count sep + 1 := by
  induction l with
  | nil => simp [splitOn]
  | cons c cs ih =>
    by_cases hc : c = sep
    · simp [splitOn, hc, ih]
    · have hb : (c == sep) = false := by simpa using hc
      simp only [splitOn, hc, if_false, List.count_cons, hb]
      cases hs : splitOn sep cs with
      | nil => exact absurd hs (splitOn_ne_nil sep cs)
      | cons a t =>
        rw [hs] at ih
        simpa using ih

theorem splitOn_mem_noSep (sep : Char) (l : List Char) : ∀ e ∈ splitOn sep l, sep ∉ e := by
  induction l with
  | nil => simp [splitOn]
  | cons c cs ih =>
    intro e he
    by_cases hc : c = sep
    · simp only [splitOn, hc, if_true, List.mem_cons] at he
      rcases he with rfl | he
      · simp
      · exact ih e he
    · simp only [splitOn, hc, if_false] at he
      cases hs : splitOn sep cs with
      | nil => exact absurd hs (splitOn_ne_nil sep cs)
      | cons a t =>
        rw [hs] at he ih
        simp only [List.mem_cons] at he
        rcases he with rfl | he
        · have ha := ih a (List.mem_cons_self _ _)
          simp only [List.mem_cons, not_or]
          exact ⟨fun e => hc e.symm, ha⟩
        · exact ih e (List.mem_cons_of_mem _ he)

theorem joinOn_splitOn (sep : Char) (l : List Char) : joinOn sep (splitOn sep l) = l := by
  induction l with
  | nil => simp [splitOn, joinOn]
  | cons c cs ih =>
    by_cases hc : c = sep
    · simp only [splitOn, hc, if_true]
      cases hs : splitOn sep cs with
      | nil => exact absurd hs (splitOn_ne_nil sep cs)
      | cons a t =>
        rw [hs] at ih
        simp [joinOn, ih]
    · simp only [splitOn, hc, if_false]
      cases hs : splitOn sep cs with
      | nil => exact absurd hs (splitOn_ne_nil sep cs)
      | cons a t =>
        rw [hs] at ih
        cases t with
        | nil =>
          simp only [joinOn] at ih ⊢
          rw [ih]
        | cons b t2 =>
          simp only [joinOn, List.cons_append] at ih ⊢
          rw [ih]

theorem splitOn_noSep (sep : Char) (n : List Char) (h : sep ∉ n) : splitOn sep n = [n] := by
  induction n with
  | nil => rfl
  | cons c cs ih =>
    simp only [List.mem_cons, not_or] at h
    have hc : ¬ c = sep := fun e => h.1 e.symm
    simp [splitOn, hc, ih h.2]

theorem splitOn_prepend (sep : Char) (e rest : List Char) (h : sep ∉ e) :
    splitOn sep (e ++ sep :: rest) = e :: splitOn sep rest := by
  induction e with
  | nil => simp [splitOn]
  | cons c cs ih =>
    simp only [List.mem_cons, not_or] at h
    have hc : ¬ c = sep := fun e => h.1 e.symm
    have ih2 : splitOn sep (cs.append (sep :: rest)) = cs :: splitOn sep rest := ih h.2
    simp only [List.cons_append, splitOn, hc, if_false]
    rw [ih2]

theorem splitOn_joinOn (sep : Char) (l : List (List Char)) (hl : l ≠ [])
    (h : ∀ e ∈ l, sep ∉ e) : splitOn sep (joinOn sep l) = l := by
  induction l with
  | nil => exact absurd rfl hl
  | cons a t ih =>
    cases t with
    | nil => simpa [joinOn] using splitOn_noSep sep a (h a (List.mem_cons_self _ _))
    | cons b t2 =>
      simp only [joinOn]
      rw [splitOn_prepend sep _ _ (h a (List.mem_cons_self _ _))]
      have := ih (by simp) (fun e he => h e (List.mem_cons_of_mem _ he))
      simp only [joinOn] at this
      rw [this]

theorem map_data_map_mk (l : List (List Char)) : (l.map String.mk).map String.data = l := by
  induction l with
  | nil => rfl
  | cons a t ih => simp [ih]

/-- C14: `ParseCommaSeparated` of the empty string is the empty, non-nil list. For a
non-empty string it is a non-nil list with one more element than the string has commas, no
element contains a comma, joining the elements with commas gives the string back, and it is
the only non-empty list of comma-free pieces that does so: the string is cut at every comma
and the pieces are kept as they are. -/
theorem ParseCommaSeparated_splits_at_commas (s : String) :
    (s = "" → ParseCommaSeparated s = some []) ∧
    (s ≠ "" → ∃ pieces, ParseCommaSeparated s = some pieces ∧
      pieces.length = s.data.count ',' + 1 ∧
      (∀ e ∈ pieces, ',' ∉ e.data) ∧
      Strings.Join pieces ',' = s ∧
      ∀ other : List String, other ≠ [] → (∀ e ∈ other, ',' ∉ e.data) →
        Strings.Join other ',' = s → other = pieces) := by
  constructor
  · intro h
    simp [ParseCommaSeparated, h]
  · intro h
    refine ⟨Strings.Split s ',', by simp [ParseCommaSeparated, h], ?_, ?_, ?_, ?_⟩
    · simp [Strings.Split, splitOn_length]
    · intro e he
      simp only [Strings.Split, List.mem_map] at he
      obtain ⟨x, hx, rfl⟩ := he
      exact splitOn_mem_noSep ',' s.data x hx
    · simp only [Strings.Join, Strings.Split, map_data_map_mk, joinOn_splitOn]
    · intro other hne hno hjoin
      have h1 : joinOn ',' (other.map String.data) = s.data := by
        rw [← hjoin]
        rfl
      have h2 := splitOn_joinOn ',' (other.map String.data) (by simpa using hne)
        (by
          intro e he
          obtain ⟨x, hx, rfl⟩ := List.mem_map.1 he
          exact hno x hx)
      rw [h1] at h2
      simp only [Strings.Split, h2, List.map_map]
      have : (String.mk ∘ String.data) = id := by
        funext x
        rfl
      rw [this, List.map_id]

/-- Witness of C14: the cases of the test table, and a string with an empty piece. -/
theorem ParseCommaSeparated_splits_at_commas_witness :
    ParseCommaSeparated "" = some [] ∧
    ParseCommaSeparated "test" = some ["test"] ∧
    ParseCommaSeparated "test,example" = some ["test", "example"] ∧
    ParseCommaSeparated "Universe,Earth,Mars,Jupiter,Saturn"
      = some ["Universe", "Earth", "Mars", "Jupiter", "Saturn"] ∧
    ParseCommaSeparated " test , example " = some [" test ", " example "] ∧
    ParseCommaSeparated "a,,b," = some ["a", "", "b", ""] ∧
    ∃ pieces, ParseCommaSeparated "a,,b," = some pieces ∧
      pieces.length = "a,,b,".data.count ',' + 1 ∧
      (∀ e ∈ pieces, ',' ∉ e.data) ∧
      Strings.Join pieces ',' = "a,,b," ∧
      ∀ other : List String, other ≠ [] → (∀ e ∈ other, ',' ∉ e.data) →
        Strings.Join other ',' = "a,,b," → other = pieces :=
  ⟨(ParseCommaSeparated_splits_at_commas "").1 rfl, by decide, by decide, by decide, by decide,
    by decide, (ParseCommaSeparated_splits_at_commas "a,,b,").2 (by decide)⟩

/-! ## `IsSemanticVersion` -/

namespace Regex

theorem nullable_iff (r : Regex) : r.nullable = true ↔ Matches r [] := by
  induction r with
  | nothing => simp [nullable, Matches]
  | epsilon => simp [nullable, Matches]
  | cls p => simp [nullable, Matches]
  | alt a b iha ihb => simp [nullable, Matches, iha, ihb]
  | seq a b iha ihb =>
    simp only [nullable, Matches, Bool.and_eq_true, iha, ihb]
    constructor
    · rintro ⟨h1, h2⟩
      exact ⟨[], [], rfl, h1, h2⟩
    · rintro ⟨s1, s2, h, h1, h2⟩
      have h3 := List.append_eq_nil.1 h.symm
      rw [h3.1] at h1
      rw [h3.2] at h2
      exact ⟨h1, h2⟩
  | star a _ =>
    simp only [nullable, Matches, true_iff]
    exact ⟨[], rfl, by simp⟩

theorem deriv_iff (r : Regex) (c : Char) (s : List Char) :
    Matches (r.deriv c) s ↔ Matches r (c :: s) := by
  induction r generalizing s with
  | nothing => simp [deriv, Matches]
  | epsilon => simp [deriv, Matches]
  | cls p =>
    by_cases hp : p c = true
    · simp only [deriv, hp, if_true, Matches]
      constructor
      · rintro rfl
        exact ⟨c, rfl, hp⟩
      · rintro ⟨x, hx, _⟩
        simp only [List.cons.injEq] at hx
        exact hx.2
    · simp only [deriv, hp, if_false, Matches, false_iff]
      rintro ⟨x, hx, hpx⟩
      simp only [List.cons.injEq] at hx
      rw [← hx.1] at hpx
      exact hp hpx
  | alt a b iha ihb => simp [deriv, Matches, iha, ihb]
  | seq a b iha ihb =>
    have key : (∃ s1 s2, s = s1 ++ s2 ∧ Matches (a.deriv c) s1 ∧ Matches b s2) ↔
        ∃ t1 t2, c :: s = (c :: t1) ++ t2 ∧ Matches a (c :: t1) ∧ Matches b t2 := by
      constructor
      · rintro ⟨s1, s2, h, h1, h2⟩
        exact ⟨s1, s2, by rw [h]; rfl, (iha s1).1 h1, h2⟩
      · rintro ⟨t1, t2, h, h1, h2⟩
        exact ⟨t1, t2, by simpa using h, (iha t1).2 h1, h2⟩
    by_cases hn : a.nullable = true
    · simp only [deriv, hn, if_true, Matches]
      rw [key, ihb]
      constructor
      · rintro (⟨t1, t2, h, h1, h2⟩ | h)
        · exact ⟨c :: t1, t2, h, h1, h2⟩
        · exact ⟨[], c :: s, rfl, (nullable_iff a).1 hn, h⟩
      · rintro ⟨u1, u2, h, h1, h2⟩
        cases u1 with
        | nil =>
          simp only [List.nil_append] at h
          rw [h]
          exact Or.inr h2
        | cons x xs =>
          have hx : c = x := by
            simp only [List.cons_append, List.cons.injEq] at h
            exact h.1
          subst hx
          exact Or.inl ⟨xs, u2, h, h1, h2⟩
    · simp only [deriv, hn, if_false, Matches] at key ⊢
      rw [key]
      constructor
      · rintro ⟨t1, t2, h, h1, h2⟩
        exact ⟨c :: t1, t2, h, h1, h2⟩
      · rintro ⟨u1, u2, h, h1, h2⟩
        cases u1 with
        | nil => exact absurd ((nullable_iff a).2 h1) hn
        | cons x xs =>
          have hx : c = x := by
            simp only [List.cons_append, List.cons.injEq] at h
            exact h.1
          subst hx
          exact ⟨xs, u2, h, h1, h2⟩
  | star a iha =>
    simp only [deriv, Matches]
    constructor
    · rintro ⟨s1, s2, h, h1, parts, hp, hall⟩
      refine ⟨(c :: s1) :: parts, by simp [h, hp], ?_⟩
      intro part hpart
      rcases List.mem_cons.1 hpart with rfl | hpart
      · exact ⟨by simp, (iha s1).1 h1⟩
      · exact hall part hpart
    · rintro ⟨parts, hp, hall⟩
      cases parts with
      | nil => simp at hp
      | cons p1 rest =>
        obtain ⟨hne, hm⟩ := hall p1 (List.mem_cons_self _ _)
        cases p1 with
        | nil => exact absurd rfl hne
        | cons x xs =>
          simp only [List.flatten_cons, List.cons_append, List.cons.injEq] at hp
          obtain ⟨rfl, hs⟩ := hp
          exact ⟨xs, rest.flatten, hs, (iha xs).2 hm, rest, rfl,
            fun part hpart => hall part (List.mem_cons_of_mem _ hpart)⟩

/-- The matcher decides membership in the language of the expression. -/
theorem matchAll_iff (r : Regex) (s : List Char) : r.matchAll s = true ↔ Matches r s := by
  induction s generalizing r with
  | nil => simpa [matchAll] using nullable_iff r
  | cons c cs ih =>
    have := ih (r.deriv c)
    simp only [matchAll, List.foldl_cons] at this ⊢
    rw [this, deriv_iff]

theorem matches_lit (c : Char) (s : List Char) : Matches (lit c) s ↔ s = [c] := by
  simp only [lit, Matches, beq_iff_eq]
  constructor
  · rintro ⟨x, rfl, rfl⟩
    rfl
  · rintro rfl
    exact ⟨c, rfl, rfl⟩

theorem matches_star_cls (p : Char → Bool) (s : List Char) :
    Matches (star (cls p)) s ↔ ∀ c ∈ s, p c = true := by
  simp only [Matches]
  constructor
  · rintro ⟨parts, rfl, hall⟩ c hc
    obtain ⟨part, hpart, hcp⟩ := List.mem_flatten.1 hc
    obtain ⟨_, x, rfl, hx⟩ := hall part hpart
    simp only [List.mem_singleton] at hcp
    rw [hcp]
    exact hx
  · intro h
    refine ⟨s.map (fun c => [c]), ?_, ?_⟩
    · clear h
      induction s with
      | nil => rfl
      | cons x xs ih => simp [← ih]
    · intro part hpart
      obtain ⟨x, hx, rfl⟩ := List.mem_map.1 hpart
      exact ⟨by simp, x, rfl, h x hx⟩

theorem matches_plus_cls (p : Char → Bool) (s : List Char) :
    Matches (plus (cls p)) s ↔ IsRun p s := by
  unfold plus
  rw [Matches]
  simp only [matches_star_cls]
  constructor
  · rintro ⟨s1, s2, rfl, ⟨x, rfl, hx⟩, h2⟩
    refine ⟨by simp, ?_⟩
    intro c hc
    rcases List.mem_append.1 hc with h | h
    · simp only [List.mem_singleton] at h
      rw [h]
      exact hx
    · exact h2 c h
  · rintro ⟨hne, hall⟩
    cases s with
    | nil => exact absurd rfl hne
    | cons x xs =>
      exact ⟨[x], xs, rfl, ⟨x, rfl, hall x (List.mem_cons_self _ _)⟩,
        fun c hc => hall c (List.mem_cons_of_mem _ hc)⟩

end Regex

theorem joinOn_cons_flatten (sep : Char) (r : List Char) (rs : List (List Char)) :
    joinOn sep (r :: rs) = r ++ (rs.map (fun x => sep :: x)).flatten := by
  induction rs generalizing r with
  | nil => simp [joinOn]
  | cons a t ih =>
    have := ih a
    simp only [joinOn, List.map_cons, List.flatten_cons, List.cons_append] at this ⊢
    rw [this]

namespace Regex

theorem matches_seq (a b : Regex) (s : List Char) :
    Matches (seq a b) s ↔ ∃ s1 s2, s = s1 ++ s2 ∧ Matches a s1 ∧ Matches b s2 := by
  rw [Matches]

theorem matches_opt (a : Regex) (s : List Char) :
    Matches (opt a) s ↔ Matches a s ∨ s = [] := by
  unfold opt
  rw [Matches, Matches]

theorem matches_star_dot_runs (p : Char → Bool) (s : List Char) :
    Matches (star (seq (lit '.') (plus (cls p)))) s ↔
      ∃ runs : List (List Char), (∀ r ∈ runs, IsRun p r) ∧
        s = (runs.map (fun x => '.' :: x)).flatten := by
  rw [Matches]
  constructor
  · rintro ⟨parts, rfl, hall⟩
    induction parts with
    | nil => exact ⟨[], by simp, rfl⟩
    | cons part rest ih =>
      obtain ⟨runs, hr, hflat⟩ := ih (fun q hq => hall q (List.mem_cons_of_mem _ hq))
      obtain ⟨_, hm⟩ := hall part (List.mem_cons_self _ _)
      rw [matches_seq] at hm
      obtain ⟨s1, s2, hs, h1, h2⟩ := hm
      rw [matches_lit] at h1
      rw [matches_plus_cls] at h2
      refine ⟨s2 :: runs, ?_, ?_⟩
      · intro r hrm
        rcases List.mem_cons.1 hrm with rfl | hrm
        · exact h2
        · exact hr r hrm
      · simp [hs, h1, hflat]
  · rintro ⟨runs, hr, rfl⟩
    refine ⟨runs.map (fun x => '.' :: x), rfl, ?_⟩
    intro part hpart
    obtain ⟨r, hrm, rfl⟩ := List.mem_map.1 hpart
    refine ⟨by simp, ?_⟩
    rw [matches_seq]
    exact ⟨['.'], r, rfl, (matches_lit '.' _).2 rfl, (matches_plus_cls p r).2 (hr r hrm)⟩

theorem matches_runs (p : Char → Bool) (s : List Char) :
    Matches (seq (plus (cls p)) (star (seq (lit '.') (plus (cls p))))) s ↔
      ∃ runs : List (List Char), runs ≠ [] ∧ (∀ r ∈ runs, IsRun p r) ∧
        s = joinOn '.' runs := by
  rw [matches_seq]
  constructor
  · rintro ⟨s1, s2, rfl, h1, h2⟩
    rw [matches_plus_cls] at h1
    rw [matches_star_dot_runs] at h2
    obtain ⟨runs, hr, rfl⟩ := h2
    refine ⟨s1 :: runs, by simp, ?_, (joinOn_cons_flatten '.' s1 runs).symm⟩
    intro r hrm
    rcases List.mem_cons.1 hrm with rfl | hrm
    · exact h1
    · exact hr r hrm
  · rintro ⟨runs, hne, hr, rfl⟩
    cases runs with
    | nil => exact absurd rfl hne
    | cons r rs =>
      refine ⟨r, _, joinOn_cons_flatten '.' r rs, ?_, ?_⟩
      · exact (matches_plus_cls p r).2 (hr r (List.mem_cons_self _ _))
      · exact (matches_star_dot_runs p _).2
          ⟨rs, fun x hx => hr x (List.mem_cons_of_mem _ hx), rfl⟩

end Regex

theorem semVerPattern_matches_iff (s : List Char) :
    Regex.Matches semVerPattern s ↔
      ∃ lead d1 d2 d3 tail, s = lead ++ d1 ++ '.' :: d2 ++ '.' :: d3 ++ tail ∧
        (lead = [] ∨ lead = ['v']) ∧
        IsRun Char.isDigit d1 ∧ IsRun Char.isDigit d2 ∧ IsRun Char.isDigit d3 ∧
        (tail = [] ∨ ∃ runs, runs ≠ [] ∧ (∀ r ∈ runs, IsRun Char.isAlphanum r) ∧
          tail = '-' :: joinOn '.' runs) := by
  unfold semVerPattern
  constructor
  · intro h
    rw [Regex.matches_seq] at h
    obtain ⟨lead, r1, rfl, hl, h⟩ := h
    rw [Regex.matches_seq] at h
    obtain ⟨d1, r2, rfl, h1, h⟩ := h
    rw [Regex.matches_seq] at h
    obtain ⟨p1, r3, rfl, hp1, h⟩ := h
    rw [Regex.matches_seq] at h
    obtain ⟨d2, r4, rfl, h2, h⟩ := h
    rw [Regex.matches_seq] at h
    obtain ⟨p2, r5, rfl, hp2, h⟩ := h
    rw [Regex.matches_seq] at h
    obtain ⟨d3, tail, rfl, h3, ht⟩ := h
    rw [Regex.matches_lit] at hp1 hp2
    rw [Regex.matches_plus_cls] at h1 h2 h3
    rw [Regex.matches_opt, Regex.matches_lit] at hl
    rw [Regex.matches_opt] at ht
    refine ⟨lead, d1, d2, d3, tail, by simp [hp1, hp2], hl.symm, h1, h2, h3, ?_⟩
    rcases ht with ht | ht
    · right
      rw [Regex.matches_seq] at ht
      obtain ⟨m, rest, rfl, hm, hrest⟩ := ht
      rw [Regex.matches_lit] at hm
      rw [Regex.matches_runs] at hrest
      obtain ⟨runs, hne, hr, rfl⟩ := hrest
      exact ⟨runs, hne, hr, by simp [hm]⟩
    · exact Or.inl ht
  · rintro ⟨lead, d1, d2, d3, tail, rfl, hl, h1, h2, h3, ht⟩
    rw [Regex.matches_seq]
    refine ⟨lead, d1 ++ '.' :: d2 ++ '.' :: d3 ++ tail, by simp, ?_, ?_⟩
    · rw [Regex.matches_opt, Regex.matches_lit]
      exact hl.symm
    rw [Regex.matches_seq]
    refine ⟨d1, '.' :: d2 ++ '.' :: d3 ++ tail, by simp, (Regex.matches_plus_cls _ _).2 h1, ?_⟩
    rw [Regex.matches_seq]
    refine ⟨['.'], d2 ++ '.' :: d3 ++ tail, by simp, (Regex.matches_lit _ _).2 rfl, ?_⟩
    rw [Regex.matches_seq]
    refine ⟨d2, '.' :: d3 ++ tail, by simp, (Regex.matches_plus_cls _ _).2 h2, ?_⟩
    rw [Regex.matches_seq]
    refine ⟨['.'], d3 ++ tail, by simp, (Regex.matches_lit _ _).2 rfl, ?_⟩
    rw [Regex.matches_seq]
    refine ⟨d3, tail, rfl, (Regex.matches_plus_cls _ _).2 h3, ?_⟩
    rw [Regex.matches_opt]
    rcases ht with ht | ⟨runs, hne, hr, rfl⟩
    · exact Or.inr ht
    · left
      rw [Regex.matches_seq]
      exact ⟨['-'], joinOn '.' runs, rfl, (Regex.matches_lit _ _).2 rfl,
        (Regex.matches_runs _ _).2 ⟨runs, hne, hr, rfl⟩⟩

/-- C15: `IsSemanticVersion` accepts exactly the strings of the semantic-version shape - an
optional leading `v`, three non-empty runs of ASCII digits separated by `.`, optionally
followed by `-` and one or more non-empty runs of ASCII letters and digits separated by
`.`, with nothing before or after. So it accepts `1.2.3`, `v1.2.3` and `1.2.3-alpha` and
rejects `1.2`, `1.2.3a` and the empty string. -/
theorem IsSemanticVersion_iff_shape :
    (∀ v : String, IsSemanticVersion v = true ↔ SemVerShape v) ∧
    IsSemanticVersion "1.2.3" = true ∧ IsSemanticVersion "v1.2.3" = true ∧
    IsSemanticVersion "1.2.3-alpha" = true ∧ IsSemanticVersion "1.2" = false ∧
    IsSemanticVersion "1.2.3a" = false ∧ IsSemanticVersion "" = false := by
  refine ⟨fun v => ?_, by decide, by decide, by decide, by decide, by decide, by decide⟩
  unfold IsSemanticVersion SemVerShape
  rw [Regex.matchAll_iff, semVerPattern_matches_iff]

end CacheWarmer
